import Mathlib

/-!
Verification development for the Linux_RPC_Node repository.

Part 1: byte-level model of the SPSC lock-free ring buffer
(`src/include/nexus/transport/LockFreeQueue.h`, class `LockFreeRingBuffer`).

The buffer is modelled as a total function `Nat → Nat` from byte offset to
byte value (the constructor memsets the region to zero; offsets `≥ BUFFER_SIZE`
stay zero because every store of the code writes below `BUFFER_SIZE`).
`head_`/`tail_` are `uint64_t` cursors; they always hold values `≤ BUFFER_SIZE`
(a `size_t` template parameter), so plain `Nat` arithmetic is exact.
The `FrameHeader { uint32 length; uint32 magic }` is serialised little-endian,
exactly as `memcpy` of the struct lays it out.  A data pointer is modelled as
`Option (List Nat)`: `none` is a null pointer, and reading `size` bytes
through it is undefined behaviour (`Option.none` result) when the pointer is
null or has fewer than `size` readable bytes.
-/

namespace Spec2Proof

namespace Ring

def MAGIC_VALID : Nat := 0xCAFEBABE

def MAGIC_PADDING : Nat := 0xDEADBEEF

def MAX_MSG_SIZE : Nat := 2040

/-- Little-endian bytes of a `uint32` value (as written by `memcpy` of the
header struct); encodes `v % 2^32`. -/
def le32 (v : Nat) : List Nat :=
  [v % 256, v / 256 % 256, v / 65536 % 256, v / 16777216 % 256]

/-- Write the byte list `bs` into the buffer starting at offset `off`. -/
def wbytes (buf : Nat → Nat) (off : Nat) (bs : List Nat) : Nat → Nat :=
  fun i => if off ≤ i ∧ i < off + bs.length then bs.getD (i - off) 0 else buf i

/-- Read a little-endian `uint32` at offset `off`. -/
def rd32 (buf : Nat → Nat) (off : Nat) : Nat :=
  buf off + 256 * buf (off + 1) + 65536 * buf (off + 2) + 16777216 * buf (off + 3)

/-- State of a `LockFreeRingBuffer<BUFFER_SIZE>`: the two cursors, the byte
buffer, and the three statistics counters. -/
structure RB where
  head : Nat
  tail : Nat
  buf : Nat → Nat
  statsWritten : Nat
  statsRead : Nat
  statsDropped : Nat

/-- The constructor: zeroed cursors, counters and buffer. -/
def rbInit : RB := ⟨0, 0, fun _ => 0, 0, 0, 0⟩

/-- `(n + 7) & ~7` for the values that occur (header-plus-payload sizes). -/
def alignUp8 (n : Nat) : Nat := (n + 7) / 8 * 8

/-- `writeFrame(offset, data, payload_size, total_len, magic)`: serialise the
header then copy the payload bytes.  `data` is the `payload_size` bytes read
through the data pointer. -/
def writeFrame (buf : Nat → Nat) (off : Nat) (data : List Nat)
    (total_len magic : Nat) : Nat → Nat :=
  wbytes buf off
    (le32 (if magic = MAGIC_VALID then data.length else total_len) ++
      le32 magic ++ data)

/-- Read `size` bytes through a data pointer; undefined behaviour (`none`)
for a null pointer or a pointer with fewer than `size` readable bytes. -/
def readPtr (ptr : Option (List Nat)) (size : Nat) : Option (List Nat) :=
  match ptr with
  | none => none
  | some d => if size ≤ d.length then some (d.take size) else none

/-- `tryWrite(data, size)` with an explicit data pointer.  Returns `none`
when the code dereferences an invalid pointer (the `memcpy` inside
`writeFrame`), `some (state, result)` otherwise. -/
def tryWriteP (B : Nat) (s : RB) (ptr : Option (List Nat)) (size : Nat) :
    Option (RB × Bool) :=
  if size > MAX_MSG_SIZE ∨ size = 0 then some (s, false)
  else
    let needed := alignUp8 (8 + size)
    if s.tail ≤ s.head then
      if s.head + needed ≤ B then
        match readPtr ptr size with
        | none => none
        | some d =>
          some ({ s with
                    buf := writeFrame s.buf s.head d needed MAGIC_VALID
                    head := s.head + needed
                    statsWritten := s.statsWritten + 1 }, true)
      else if needed < s.tail then
        match readPtr ptr size with
        | none => none
        | some d =>
          let pad_len := B - s.head
          let buf1 := if 8 ≤ pad_len then
              wbytes s.buf s.head (le32 pad_len ++ le32 MAGIC_PADDING)
            else s.buf
          some ({ s with
                    buf := writeFrame buf1 0 d needed MAGIC_VALID
                    head := needed
                    statsWritten := s.statsWritten + 1 }, true)
      else some ({ s with statsDropped := s.statsDropped + 1 }, false)
    else
      if s.head + needed < s.tail then
        match readPtr ptr size with
        | none => none
        | some d =>
          some ({ s with
                    buf := writeFrame s.buf s.head d needed MAGIC_VALID
                    head := s.head + needed
                    statsWritten := s.statsWritten + 1 }, true)
      else some ({ s with statsDropped := s.statsDropped + 1 }, false)

/-- `tryWrite` as called with a valid pointer to exactly the payload bytes
(`size = d.length`); this call never hits undefined behaviour
(`tryWriteP_some` below), so the `getD` default is never used. -/
def tryWrite (B : Nat) (s : RB) (d : List Nat) : RB × Bool :=
  (tryWriteP B s (some d) d.length).getD (s, false)

/-- Common tail of `tryRead` after the padding check: validity checks,
payload copy-out and the `tail_` advance. -/
def finishRead (s : RB) (t len magic : Nat) : RB × Option (List Nat) :=
  if magic ≠ MAGIC_VALID then (s, none)
  else if len > MAX_MSG_SIZE then (s, none)
  else
    ({ s with
         tail := t + alignUp8 (8 + len)
         statsRead := s.statsRead + 1 },
     some ((List.range len).map (fun i => s.buf (t + 8 + i))))

/-- `tryRead(out_data, out_size)`: returns the new state and the payload
bytes stored into the out buffer (or `none` for a `false` return). -/
def tryRead (s : RB) : RB × Option (List Nat) :=
  if s.tail = s.head then (s, none)
  else
    let magic0 := rd32 s.buf (s.tail + 4)
    if magic0 = MAGIC_PADDING then
      let s' : RB := { s with tail := 0 }
      if 0 = s.head then (s', none)
      else finishRead s' 0 (rd32 s.buf 0) (rd32 s.buf 4)
    else finishRead s s.tail (rd32 s.buf s.tail) magic0

/-- One producer/consumer operation on the ring. -/
inductive Op where
  | write (d : List Nat) : Op
  | read : Op

/-- Run a sequence of operations; returns the final state, the payloads of
the successful writes and the payloads of the successful reads, in order. -/
def run (B : Nat) (s : RB) : List Op → RB × List (List Nat) × List (List Nat)
  | [] => (s, [], [])
  | Op.write d :: ops =>
    let p := tryWrite B s d
    let r := run B p.1 ops
    (r.1, if p.2 then d :: r.2.1 else r.2.1, r.2.2)
  | Op.read :: ops =>
    let p := tryRead s
    let r := run B p.1 ops
    (r.1, r.2.1, match p.2 with | some m => m :: r.2.2 | none => r.2.2)

/-- The operation sequence of spec §8 scenario 4 (claim C2): four 1-byte
writes, a failing fifth write, two reads, a write of payload `5`, then the
remaining reads. -/
def opsScenario4 : List Op :=
  [Op.write [1], Op.write [2], Op.write [3], Op.write [4], Op.write [5],
   Op.read, Op.read, Op.write [5], Op.read, Op.read, Op.read]

/-- Reaching the stuck wrap-at-boundary state: fill the 64-byte ring exactly
(head = 64), drain it (tail = 64), then write once more (the producer wraps
to offset 0 without writing a padding frame, since `pad_len = 0 < 8`). -/
def opsStuck : List Op :=
  [Op.write [1], Op.write [2], Op.write [3], Op.write [4],
   Op.read, Op.read, Op.read, Op.read, Op.write [9]]


/-- Number of buffer bytes a frame with payload `m` occupies: the 8-byte
header plus the payload, aligned up (`needed` in `tryWrite`, and the
`tail_` advance in `tryRead`). -/
def flen (m : List Nat) : Nat := alignUp8 (8 + m.length)

/-- Offset `p` holds a complete valid frame with payload `m`: the length
field, the valid magic, the size bounds the writer enforces, and the
payload bytes themselves. -/
def frameAt (buf : Nat → Nat) (p : Nat) (m : List Nat) : Prop :=
  rd32 buf p = m.length ∧ rd32 buf (p + 4) = MAGIC_VALID ∧
  1 ≤ m.length ∧ m.length ≤ MAX_MSG_SIZE ∧
  ∀ i, i < m.length → buf (p + 8 + i) = m.getD i 0

/-- The region from offset `p` to offset `q` holds exactly the frames of
the payload list `msgs`, laid back to back. -/
def chain (buf : Nat → Nat) : Nat → Nat → List (List Nat) → Prop
  | p, q, [] => p = q
  | p, q, m :: ms => frameAt buf p m ∧ chain buf (p + flen m) q ms

/-- Producer/consumer invariant of the ring.  `pend` are the payloads
written but not yet read that the consumer will still deliver; `doom` are
payloads written after a wrap that left no padding frame (`pad_len < 8`),
which the consumer can never reach.  Three shapes: the linear region
`[tail, head)`; the wrapped region `[tail, q)` behind a padding frame at
`q` with the remainder in `[0, head)`; and the stuck shape where the
header the consumer will read at `tail` lies at or beyond the end of the
array. -/
def Inv (B : Nat) (s : RB) (pend doom : List (List Nat)) : Prop :=
  (∀ i, B ≤ i → s.buf i = 0) ∧ 8 ∣ s.head ∧ 8 ∣ s.tail ∧
  ((doom = [] ∧ s.tail ≤ s.head ∧ s.head ≤ B ∧
      chain s.buf s.tail s.head pend) ∨
   (doom = [] ∧ ∃ q p1 p2, pend = p1 ++ p2 ∧ s.head < s.tail ∧ s.tail ≤ q ∧
      q + 8 ≤ B ∧ chain s.buf s.tail q p1 ∧
      rd32 s.buf (q + 4) = MAGIC_PADDING ∧
      chain s.buf 0 s.head p2 ∧ p2 ≠ []) ∨
   (doom ≠ [] ∧ s.head < s.tail ∧ s.tail ≤ B ∧ chain s.buf s.tail B pend ∧
      chain s.buf 0 s.head doom))

end Ring

namespace Registry

inductive TransportType where
  | IN_PROCESS
  | UDP
  | SHARED_MEMORY
  deriving DecidableEq, Repr

inductive ServiceType where
  | NORMAL
  | LARGE_DATA
  deriving DecidableEq, Repr

/-- Modelled from the spec: `ServiceDescriptor` is the tuple
`(node_id, group, topic, service_type, transport, udp_endpoint?,
shm_channel_name?)` (spec §3); its `getCapability()` returns the string
`"group:topic"` (spec §4.6, and the comment at GlobalRegistry.cpp:87). -/
structure ServiceDescriptor where
  node_id : String
  group : String
  topic : String
  service_type : ServiceType
  transport : TransportType
  udp_endpoint : Option String
  shm_channel_name : Option String
  deriving DecidableEq, Repr

/-- Modelled from the spec: capability string `"group:topic"`. -/
def ServiceDescriptor.getCapability (svc : ServiceDescriptor) : String :=
  svc.group ++ ":" ++ svc.topic

/-- The `services_` map: keys sorted strictly ascending, one vector per key. -/
abbrev ServiceTable := List (String × List ServiceDescriptor)

/-- Lexicographic comparison of character lists (the order of
`std::map<std::string, ...>` keys), written so that it evaluates inside the
kernel. -/
def charListLt : List Char → List Char → Bool
  | _, [] => false
  | [], _ :: _ => true
  | a :: as, b :: bs =>
    if a < b then true
    else if b < a then false
    else charListLt as bs

/-- `operator<` on `std::string` keys. -/
def strLt (a b : String) : Bool := charListLt a.data b.data

theorem charListLt_iff : ∀ (as bs : List Char),
    charListLt as bs = true ↔ as.lt bs := by
  intro as
  induction as with
  | nil =>
    intro bs
    cases bs with
    | nil =>
      exact ⟨fun h => by simp [charListLt] at h, fun h => by cases h⟩
    | cons b bs =>
      exact ⟨fun _ => List.lt.nil b bs, fun _ => rfl⟩
  | cons a as ih =>
    intro bs
    cases bs with
    | nil =>
      exact ⟨fun h => by simp [charListLt] at h, fun h => by cases h⟩
    | cons b bs =>
      unfold charListLt
      by_cases h1 : a < b
      · rw [if_pos h1]
        exact ⟨fun _ => List.lt.head as bs h1, fun _ => rfl⟩
      · rw [if_neg h1]
        by_cases h2 : b < a
        · rw [if_pos h2]
          constructor
          · intro h; cases h
          · intro h
            cases h with
            | head _ _ h => exact absurd h h1
            | tail _ h _ => exact absurd h2 h
        · rw [if_neg h2]
          rw [ih bs]
          constructor
          · intro h; exact List.lt.tail h1 h2 h
          · intro h
            cases h with
            | head _ _ h => exact absurd h h1
            | tail _ _ h => exact h

/-- `strLt` agrees with the `String` order. -/
theorem strLt_iff (a b : String) : strLt a b = true ↔ a < b := by
  refine (charListLt_iff a.data b.data).trans ?_
  rw [String.lt_iff_toList_lt]
  exact List.lt_iff_lex_lt a.data b.data

theorem strLt_irrefl (a : String) : strLt a a = false := by
  cases h : strLt a a
  · rfl
  · exact absurd ((strLt_iff a a).mp h) (lt_irrefl a)

theorem strLt_asymm {a b : String} (h : strLt a b = true) :
    strLt b a = false := by
  cases h2 : strLt b a
  · rfl
  · exact absurd (lt_trans ((strLt_iff a b).mp h) ((strLt_iff b a).mp h2))
      (lt_irrefl a)

theorem strLt_trans {a b c : String} (h1 : strLt a b = true)
    (h2 : strLt b c = true) : strLt a c = true :=
  (strLt_iff a c).mpr (lt_trans ((strLt_iff a b).mp h1) ((strLt_iff b c).mp h2))

theorem strLt_connex {a b : String} (h1 : strLt a b = false)
    (h2 : strLt b a = false) : a = b := by
  rcases lt_trichotomy a b with h | h | h
  · rw [(strLt_iff a b).mpr h] at h1; cases h1
  · exact h
  · rw [(strLt_iff b a).mpr h] at h2; cases h2

theorem strLt_ne {a b : String} (h : strLt a b = true) : a ≠ b := by
  intro he
  rw [he, strLt_irrefl] at h
  cases h

/-- The scan loop of `GlobalRegistry::registerService` over one group's
vector: first descriptor with the same node and capability decides
(ignore / keep `SHARED_MEMORY` / replace by `SHARED_MEMORY` / keep
existing); with no match the new descriptor is appended. -/
def insertSvcScan (svc : ServiceDescriptor) : List ServiceDescriptor → List ServiceDescriptor
  | [] => [svc]
  | d :: ds =>
    if d.node_id = svc.node_id ∧ d.getCapability = svc.getCapability then
      if d.transport = svc.transport then d :: ds
      else if d.transport = TransportType.SHARED_MEMORY then d :: ds
      else if svc.transport = TransportType.SHARED_MEMORY then svc :: ds
      else d :: ds
    else d :: insertSvcScan svc ds

/-- `GlobalRegistry::registerService(group, svc)`: `services_[group]`
creates the (sorted-position) entry when absent, then the scan loop runs
on the vector. -/
def registerService (group : String) (svc : ServiceDescriptor) :
    ServiceTable → ServiceTable
  | [] => [(group, insertSvcScan svc [])]
  | (k, vec) :: rest =>
    if strLt group k then (group, insertSvcScan svc []) :: (k, vec) :: rest
    else if group = k then (k, insertSvcScan svc vec) :: rest
    else (k, vec) :: registerService group svc rest

/-- `GlobalRegistry::unregisterService(group, svc)`: in the group's vector
remove every descriptor with the same `node_id` and `topic`; erase the
group entry if the vector becomes empty. -/
def unregisterService (group : String) (svc : ServiceDescriptor) :
    ServiceTable → ServiceTable
  | [] => []
  | (k, vec) :: rest =>
    if k = group then
      if vec.filter
          (fun s => !(s.node_id == svc.node_id && s.topic == svc.topic)) = []
      then rest
      else (k, vec.filter
        (fun s => !(s.node_id == svc.node_id && s.topic == svc.topic))) :: rest
    else (k, vec) :: unregisterService group svc rest

/-- The services sweep of `GlobalRegistry::unregisterNode(node_id)`:
remove from every group every descriptor whose `node_id` matches, erasing
groups that become empty.  (The `nodes_` weak-pointer map that the same
function also erases from is not part of the service table.) -/
def unregisterNodeServices (node_id : String) : ServiceTable → ServiceTable
  | [] => []
  | (k, vec) :: rest =>
    if vec.filter (fun s => !(s.node_id == node_id)) = []
    then unregisterNodeServices node_id rest
    else (k, vec.filter (fun s => !(s.node_id == node_id))) ::
      unregisterNodeServices node_id rest

/-- Key lookup in the `services_` map. -/
def lookupTbl (group : String) : ServiceTable → Option (List ServiceDescriptor)
  | [] => none
  | (k, vec) :: rest => if k = group then some vec else lookupTbl group rest

/-- `GlobalRegistry::findServices(group)`: every descriptor for the empty
group, the group's vector (or nothing) otherwise. -/
def findServices (group : String) (tbl : ServiceTable) : List ServiceDescriptor :=
  if group = "" then (tbl.map Prod.snd).flatten
  else (lookupTbl group tbl).getD []

/-- `GlobalRegistry::clearServices()`. -/
def clearServices : ServiceTable := []

/-- One mutating operation on the service table. -/
inductive RegOp where
  | reg (group : String) (svc : ServiceDescriptor)
  | unreg (group : String) (svc : ServiceDescriptor)
  | unregNode (node_id : String)
  | clear

def applyRegOp (tbl : ServiceTable) : RegOp → ServiceTable
  | RegOp.reg g svc => registerService g svc tbl
  | RegOp.unreg g svc => unregisterService g svc tbl
  | RegOp.unregNode n => unregisterNodeServices n tbl
  | RegOp.clear => clearServices

/-- Run a sequence of table operations from the empty (initial) table. -/
def runReg (ops : List RegOp) : ServiceTable := ops.foldl applyRegOp []

/-- A `registerService` call is group-matched when the map key passed equals
the descriptor's own group (as every caller in the system does). -/
def RegOpMatched : RegOp → Prop
  | RegOp.reg g svc => g = svc.group
  | _ => True

instance : DecidablePred RegOpMatched := fun op =>
  match op with
  | RegOp.reg g svc => inferInstanceAs (Decidable (g = svc.group))
  | RegOp.unreg _ _ => inferInstanceAs (Decidable True)
  | RegOp.unregNode _ => inferInstanceAs (Decidable True)
  | RegOp.clear => inferInstanceAs (Decidable True)

/-- All descriptors held in the table. -/
def allSvcs (tbl : ServiceTable) : List ServiceDescriptor :=
  (tbl.map Prod.snd).flatten

/-- Does `d` carry the `(node_id, group, topic)` identity `(n, g, t)`? -/
def isId (n g t : String) (d : ServiceDescriptor) : Bool :=
  d.node_id == n && d.group == g && d.topic == t

/-- The descriptors stored for one `(node_id, group, topic)` identity. -/
def svcsFor (n g t : String) (tbl : ServiceTable) : List ServiceDescriptor :=
  (allSvcs tbl).filter (isId n g t)

/-- Two descriptors with different `(node_id, group, topic)` identities. -/
abbrev distinctId (a b : ServiceDescriptor) : Prop :=
  ¬(a.node_id = b.node_id ∧ a.group = b.group ∧ a.topic = b.topic)

/-- Two descriptors with different `(node_id, topic)` pairs (the uniqueness
granularity inside one group's vector). -/
abbrev distinctNT (a b : ServiceDescriptor) : Prop :=
  ¬(a.node_id = b.node_id ∧ a.topic = b.topic)

/-- The table holds at most one descriptor per `(node_id, group, topic)`. -/
abbrev AtMostOnePerIdentity (tbl : ServiceTable) : Prop :=
  (allSvcs tbl).Pairwise distinctId

/-- Well-formedness of the `services_` map: keys strictly sorted (as in
`std::map`), every descriptor filed under its own group, and no two
descriptors of a vector sharing `(node_id, topic)`. -/
def WFtbl (tbl : ServiceTable) : Prop :=
  tbl.Pairwise (fun a b => a.1 < b.1) ∧
  (∀ p ∈ tbl, ∀ d ∈ p.2, d.group = p.1) ∧
  (∀ p ∈ tbl, p.2.Pairwise distinctNT)

end Registry

namespace Node

/-- `librpc::Node::Error` (src/include/Node.h). -/
inductive Error where
  | NO_ERROR
  | INVALID_ARG
  | NOT_INITIALIZED
  | ALREADY_EXISTS
  | NOT_FOUND
  | NETWORK_ERROR
  | TIMEOUT
  | UNEXPECTED_ERROR
  deriving DecidableEq, Repr

end Node

namespace NodeImpl

open Registry (strLt)

/-- `NodeImpl::SubscriptionInfo`: the topic set and the group callback. -/
structure SubscriptionInfo where
  topics : List String
  callback : Nat
  deriving DecidableEq, Repr

/-- The node state the subscription operations touch: the `running_` flag
and the `subscriptions_` map. -/
structure NState where
  running : Bool
  subscriptions : List (String × SubscriptionInfo)
  deriving DecidableEq, Repr

/-- A node after `initialize`: running, with no subscriptions. -/
def nodeInit : NState := ⟨true, []⟩

/-- `std::set<std::string>::insert`. -/
def setInsert (t : String) : List String → List String
  | [] => [t]
  | x :: xs =>
    if strLt t x then t :: x :: xs
    else if t = x then x :: xs
    else x :: setInsert t xs

/-- `std::set<std::string>::erase(key)`. -/
def setErase (t : String) : List String → List String
  | [] => []
  | x :: xs => if t = x then xs else x :: setErase t xs

/-- `subscriptions_.find(group)`. -/
def subsLookup (g : String) : List (String × SubscriptionInfo) → Option SubscriptionInfo
  | [] => none
  | (k, v) :: rest => if k = g then some v else subsLookup g rest

/-- Insert-or-assign at the key's sorted position (the net effect of
`subscriptions_[group]` plus the mutations through the reference). -/
def subsInsert (g : String) (v : SubscriptionInfo) :
    List (String × SubscriptionInfo) → List (String × SubscriptionInfo)
  | [] => [(g, v)]
  | (k, w) :: rest =>
    if strLt g k then (g, v) :: (k, w) :: rest
    else if g = k then (k, v) :: rest
    else (k, w) :: subsInsert g v rest

/-- `subscriptions_.erase(it)` for the entry with this key. -/
def subsErase (g : String) :
    List (String × SubscriptionInfo) → List (String × SubscriptionInfo)
  | [] => []
  | (k, w) :: rest => if k = g then rest else (k, w) :: subsErase g rest

/-- `NodeImpl::subscribe(msg_group, topics, callback)`: validation, get or
create the group entry, insert the non-empty topics, replace the callback,
then broadcast one SUBSCRIBE announcement per non-empty topic. -/
def subscribe (s : NState) (g : String) (topics : List String) (cb : Nat) :
    NState × Node.Error × List (String × String × Bool) :=
  if g = "" ∨ topics = [] ∨ cb = 0 then (s, Node.Error.INVALID_ARG, [])
  else if s.running = false then (s, Node.Error.NOT_INITIALIZED, [])
  else
    let info := (subsLookup g s.subscriptions).getD ⟨[], 0⟩
    let info' : SubscriptionInfo :=
      ⟨topics.foldl (fun ts t => if t ≠ "" then setInsert t ts else ts)
        info.topics, cb⟩
    ({ running := s.running,
       subscriptions := subsInsert g info' s.subscriptions },
     Node.Error.NO_ERROR,
     topics.filterMap (fun t => if t ≠ "" then some (g, t, true) else none))

/-- `NodeImpl::unsubscribe(msg_group, topics)`.  With an empty topic list
the code executes `subscriptions_.erase(it)` and then iterates
`it->second.topics` of the just-erased map node to broadcast the
UNSUBSCRIBE announcements — a use-after-free of the erased entry, modelled
as undefined behaviour (`none`). -/
def unsubscribe (s : NState) (g : String) (topics : List String) :
    Option (NState × Node.Error × List (String × String × Bool)) :=
  if g = "" then some (s, Node.Error.INVALID_ARG, [])
  else if s.running = false then some (s, Node.Error.NOT_INITIALIZED, [])
  else
    match subsLookup g s.subscriptions with
    | none => some (s, Node.Error.NOT_FOUND, [])
    | some info =>
      if topics = [] then none
      else
        let info' : SubscriptionInfo :=
          ⟨topics.foldl (fun ts t => setErase t ts) info.topics, info.callback⟩
        some (if info'.topics = [] then
            ({ running := s.running,
               subscriptions := subsErase g s.subscriptions },
             Node.Error.NO_ERROR, topics.map (fun t => (g, t, false)))
          else
            ({ running := s.running,
               subscriptions := subsInsert g info' s.subscriptions },
             Node.Error.NO_ERROR, topics.map (fun t => (g, t, false))))

/-- `NodeImpl::getSubscriptions()`: the `(group, topics)` pairs in map
order. -/
def getSubscriptions (s : NState) : List (String × List String) :=
  s.subscriptions.map (fun p => (p.1, p.2.topics))

/-- `NodeImpl::isSubscribed(msg_group, topic)`. -/
def isSubscribed (s : NState) (g t : String) : Bool :=
  match subsLookup g s.subscriptions with
  | none => false
  | some info => info.topics.contains t

/-- Well-formedness of the subscription map: keys strictly sorted, every
topic set strictly sorted. -/
def SubsWF (s : NState) : Prop :=
  s.subscriptions.Pairwise (fun a b => strLt a.1 b.1 = true) ∧
  ∀ p ∈ s.subscriptions, p.2.topics.Pairwise (fun a b => strLt a b = true)

end NodeImpl

namespace Ring

theorem alignUp8_ge_sixteen (size : Nat) (h : 1 ≤ size) :
    16 ≤ alignUp8 (8 + size) := by
  unfold alignUp8; omega

theorem alignUp8_lower (n : Nat) : n ≤ alignUp8 n := by
  unfold alignUp8; omega

theorem alignUp8_dvd (n : Nat) : 8 ∣ alignUp8 n := by
  unfold alignUp8; omega

/-- Case analysis on a completed `tryWrite` call: a successful write leaves
`head ≠ tail` and keeps `tail`; a rejected one changes nothing but the drop
counter. -/
theorem tryWriteP_result (B : Nat) (s : RB) (ptr : Option (List Nat))
    (size : Nat) (r : RB × Bool) (h : tryWriteP B s ptr size = some r) :
    (r.2 = true → r.1.head ≠ r.1.tail ∧ r.1.tail = s.tail) ∧
    (r.2 = false → r.1.head = s.head ∧ r.1.tail = s.tail ∧ r.1.buf = s.buf) := by
  unfold tryWriteP at h
  split at h
  · injection h with h; subst h
    exact ⟨by simp, fun _ => ⟨rfl, rfl, rfl⟩⟩
  · rename_i hsz
    have h16 : 16 ≤ alignUp8 (8 + size) := alignUp8_ge_sixteen size (by omega)
    cases hp : readPtr ptr size with
    | none =>
      simp only [hp] at h
      split at h
      · split at h
        · cases h
        · split at h
          · cases h
          · injection h with h; subst h
            exact ⟨by simp, fun _ => ⟨rfl, rfl, rfl⟩⟩
      · split at h
        · cases h
        · injection h with h; subst h
          exact ⟨by simp, fun _ => ⟨rfl, rfl, rfl⟩⟩
    | some dd =>
      simp only [hp] at h
      split at h
      · rename_i hge
        split at h
        · injection h with h; subst h
          exact ⟨fun _ => ⟨by simp; omega, rfl⟩, by simp⟩
        · split at h
          · rename_i hwrap
            injection h with h; subst h
            exact ⟨fun _ => ⟨by simp; omega, rfl⟩, by simp⟩
          · injection h with h; subst h
            exact ⟨by simp, fun _ => ⟨rfl, rfl, rfl⟩⟩
      · split at h
        · rename_i hlt
          injection h with h; subst h
          exact ⟨fun _ => ⟨by simp; omega, rfl⟩, by simp⟩
        · injection h with h; subst h
          exact ⟨by simp, fun _ => ⟨rfl, rfl, rfl⟩⟩

/-- A `tryWrite` call with a valid pointer to exactly the payload bytes never
hits undefined behaviour. -/
theorem tryWriteP_some (B : Nat) (s : RB) (d : List Nat) :
    tryWriteP B s (some d) d.length = some (tryWrite B s d) := by
  cases hr : tryWriteP B s (some d) d.length with
  | some r => simp [tryWrite, hr]
  | none =>
    exfalso
    unfold tryWriteP at hr
    simp only [readPtr, le_refl, if_true] at hr
    split at hr
    · cases hr
    · split at hr
      · split at hr
        · cases hr
        · split at hr <;> cases hr
      · split at hr <;> cases hr


theorem flen_lower (m : List Nat) : 8 + m.length ≤ flen m := alignUp8_lower _

theorem flen_dvd (m : List Nat) : 8 ∣ flen m := alignUp8_dvd _

theorem flen_sixteen {m : List Nat} (h : 1 ≤ m.length) : 16 ≤ flen m :=
  alignUp8_ge_sixteen m.length h

theorem le32_append_cons (a b : Nat) (d : List Nat) :
    le32 a ++ le32 b ++ d =
      a % 256 :: a / 256 % 256 :: a / 65536 % 256 :: a / 16777216 % 256 ::
      b % 256 :: b / 256 % 256 :: b / 65536 % 256 :: b / 16777216 % 256 ::
      d := rfl

theorem length_le32_append (a b : Nat) (d : List Nat) :
    (le32 a ++ le32 b ++ d).length = 8 + d.length := by
  simp only [le32, List.length_append, List.length_cons, List.length_nil]

theorem wbytes_get_k {buf : Nat → Nat} {off : Nat} {bs : List Nat} (k : Nat)
    (hk : k < bs.length) : wbytes buf off bs (off + k) = bs.getD k 0 := by
  unfold wbytes
  rw [if_pos ⟨Nat.le_add_right off k, by omega⟩, Nat.add_sub_cancel_left]

theorem wbytes_out {buf : Nat → Nat} {off i : Nat} {bs : List Nat}
    (h : i < off ∨ off + bs.length ≤ i) : wbytes buf off bs i = buf i := by
  unfold wbytes
  rw [if_neg]
  rintro ⟨h1, h2⟩
  rcases h with h | h <;> omega

theorem getD_cons8 (x0 x1 x2 x3 x4 x5 x6 x7 : Nat) (d : List Nat) (i : Nat) :
    (x0 :: x1 :: x2 :: x3 :: x4 :: x5 :: x6 :: x7 :: d).getD (i + 8) 0 =
      d.getD i 0 := by
  rw [show i + 8 = i + 7 + 1 from rfl, List.getD_cons_succ,
      show i + 7 = i + 6 + 1 from rfl, List.getD_cons_succ,
      show i + 6 = i + 5 + 1 from rfl, List.getD_cons_succ,
      show i + 5 = i + 4 + 1 from rfl, List.getD_cons_succ,
      show i + 4 = i + 3 + 1 from rfl, List.getD_cons_succ,
      show i + 3 = i + 2 + 1 from rfl, List.getD_cons_succ,
      show i + 2 = i + 1 + 1 from rfl, List.getD_cons_succ,
      List.getD_cons_succ]

theorem rd32_wbytes_first {buf : Nat → Nat} {off : Nat} (a b : Nat)
    (d : List Nat) :
    rd32 (wbytes buf off (le32 a ++ le32 b ++ d)) off = a % 4294967296 := by
  have h0 : wbytes buf off (le32 a ++ le32 b ++ d) off =
      (le32 a ++ le32 b ++ d).getD 0 0 := by
    unfold wbytes
    rw [if_pos ⟨Nat.le_refl off, by rw [length_le32_append]; omega⟩,
        Nat.sub_self]
  unfold rd32
  rw [h0, wbytes_get_k 1 (by rw [length_le32_append]; omega),
      wbytes_get_k 2 (by rw [length_le32_append]; omega),
      wbytes_get_k 3 (by rw [length_le32_append]; omega),
      le32_append_cons]
  show a % 256 + 256 * (a / 256 % 256) + 65536 * (a / 65536 % 256) +
      16777216 * (a / 16777216 % 256) = a % 4294967296
  omega

theorem rd32_wbytes_second {buf : Nat → Nat} {off : Nat} (a b : Nat)
    (d : List Nat) :
    rd32 (wbytes buf off (le32 a ++ le32 b ++ d)) (off + 4) =
      b % 4294967296 := by
  unfold rd32
  rw [show off + 4 + 1 = off + 5 from rfl, show off + 4 + 2 = off + 6 from rfl,
      show off + 4 + 3 = off + 7 from rfl,
      wbytes_get_k 4 (by rw [length_le32_append]; omega),
      wbytes_get_k 5 (by rw [length_le32_append]; omega),
      wbytes_get_k 6 (by rw [length_le32_append]; omega),
      wbytes_get_k 7 (by rw [length_le32_append]; omega),
      le32_append_cons]
  show b % 256 + 256 * (b / 256 % 256) + 65536 * (b / 65536 % 256) +
      16777216 * (b / 16777216 % 256) = b % 4294967296
  omega

theorem wbytes_payload {buf : Nat → Nat} {off : Nat} (a b : Nat)
    (d : List Nat) (i : Nat) (hi : i < d.length) :
    wbytes buf off (le32 a ++ le32 b ++ d) (off + 8 + i) = d.getD i 0 := by
  rw [show off + 8 + i = off + (i + 8) by omega,
      wbytes_get_k (i + 8) (by rw [length_le32_append]; omega),
      le32_append_cons, getD_cons8]

theorem writeFrame_out {buf : Nat → Nat} {off : Nat} {d : List Nat}
    {total magic : Nat} {j : Nat} (h : j < off ∨ off + 8 + d.length ≤ j) :
    writeFrame buf off d total magic j = buf j := by
  unfold writeFrame
  apply wbytes_out
  rw [length_le32_append]
  omega

theorem rd32_pad_second {buf : Nat → Nat} {off : Nat} (a b : Nat) :
    rd32 (wbytes buf off (le32 a ++ le32 b)) (off + 4) = b % 4294967296 := by
  have h : le32 a ++ le32 b = le32 a ++ le32 b ++ ([] : List Nat) := by
    rw [List.append_nil]
  rw [h]
  exact rd32_wbytes_second a b []

theorem pad_out {buf : Nat → Nat} {off j : Nat} (a b : Nat)
    (h : j < off ∨ off + 8 ≤ j) :
    wbytes buf off (le32 a ++ le32 b) j = buf j := by
  apply wbytes_out
  have hlen : (le32 a ++ le32 b).length = 8 := by
    simp [le32]
  rw [hlen]
  exact h

theorem rd32_congr {buf bufN : Nat → Nat} {p : Nat}
    (h : ∀ j, p ≤ j → j < p + 4 → bufN j = buf j) :
    rd32 bufN p = rd32 buf p := by
  unfold rd32
  rw [h p (Nat.le_refl p) (by omega), h (p + 1) (by omega) (by omega),
      h (p + 2) (by omega) (by omega), h (p + 3) (by omega) (by omega)]

theorem rd32_zero {buf : Nat → Nat} {p : Nat}
    (h : ∀ j, p ≤ j → buf j = 0) : rd32 buf p = 0 := by
  unfold rd32
  rw [h p (Nat.le_refl p), h (p + 1) (by omega), h (p + 2) (by omega),
      h (p + 3) (by omega)]

theorem frameAt_writeFrame {buf : Nat → Nat} {off total : Nat}
    {d : List Nat} (h1 : 1 ≤ d.length) (h2 : d.length ≤ MAX_MSG_SIZE) :
    frameAt (writeFrame buf off d total MAGIC_VALID) off d := by
  unfold writeFrame frameAt
  rw [if_pos rfl]
  refine ⟨?_, ?_, h1, h2, ?_⟩
  · rw [rd32_wbytes_first]
    exact Nat.mod_eq_of_lt (by unfold MAX_MSG_SIZE at h2; omega)
  · rw [rd32_wbytes_second]
    decide
  · intro i hi
    exact wbytes_payload _ _ d i hi

theorem frameAt_congr {buf bufN : Nat → Nat} {p : Nat} {m : List Nat}
    (hfr : frameAt buf p m)
    (h : ∀ j, p ≤ j → j < p + 8 + m.length → bufN j = buf j) :
    frameAt bufN p m := by
  obtain ⟨h1, h2, h3, h4, h5⟩ := hfr
  refine ⟨?_, ?_, h3, h4, ?_⟩
  · rw [rd32_congr (fun j hj1 hj2 => h j hj1 (by omega))]
    exact h1
  · rw [rd32_congr (fun j hj1 hj2 => h j (by omega) (by omega))]
    exact h2
  · intro i hi
    rw [h (p + 8 + i) (by omega) (by omega)]
    exact h5 i hi

theorem list_extract {m : List Nat} {f : Nat → Nat}
    (h : ∀ i, i < m.length → f i = m.getD i 0) :
    (List.range m.length).map f = m := by
  apply List.ext_getElem
  · rw [List.length_map, List.length_range]
  · intro n h1 h2
    rw [List.getElem_map, List.getElem_range, h n h2,
        List.getD_eq_getElem m 0 h2]

theorem chain_le {buf : Nat → Nat} :
    ∀ {ms : List (List Nat)} {p q : Nat}, chain buf p q ms → p ≤ q := by
  intro ms
  induction ms with
  | nil =>
    intro p q h
    exact Nat.le_of_eq h
  | cons m rest ih =>
    intro p q h
    have h1 : 16 ≤ flen m := flen_sixteen h.1.2.2.1
    have h2 : p + flen m ≤ q := ih h.2
    omega

theorem chain_eq_nil {buf : Nat → Nat} {p : Nat} {ms : List (List Nat)}
    (h : chain buf p p ms) : ms = [] := by
  cases ms with
  | nil => rfl
  | cons m rest =>
    have h1 : 16 ≤ flen m := flen_sixteen h.1.2.2.1
    have h2 : p + flen m ≤ p := chain_le h.2
    omega

theorem chain_append {buf : Nat → Nat} {m : List Nat} :
    ∀ {ms : List (List Nat)} {p q : Nat}, chain buf p q ms →
      frameAt buf q m → chain buf p (q + flen m) (ms ++ [m]) := by
  intro ms
  induction ms with
  | nil =>
    intro p q h hfr
    have hp : p = q := h
    subst hp
    exact ⟨hfr, rfl⟩
  | cons m0 rest ih =>
    intro p q h hfr
    exact ⟨h.1, ih h.2 hfr⟩

theorem chain_congr {buf bufN : Nat → Nat} :
    ∀ {ms : List (List Nat)} {p q : Nat}, chain buf p q ms →
      (∀ j, p ≤ j → j < q → bufN j = buf j) → chain bufN p q ms := by
  intro ms
  induction ms with
  | nil =>
    intro p q h _
    exact h
  | cons m rest ih =>
    intro p q h hag
    have hle : p + flen m ≤ q := chain_le h.2
    have hfl : 8 + m.length ≤ flen m := flen_lower m
    exact ⟨frameAt_congr h.1 (fun j hj1 hj2 => hag j hj1 (by omega)),
      ih h.2 (fun j hj1 hj2 => hag j (by omega) hj2)⟩

theorem tryWrite_reject {B : Nat} {s : RB} {d : List Nat}
    (h : d.length > MAX_MSG_SIZE ∨ d.length = 0) :
    tryWrite B s d = (s, false) := by
  unfold tryWrite tryWriteP
  rw [if_pos h]
  rfl

theorem tryWrite_fit {B : Nat} {s : RB} {d : List Nat}
    (hsz : ¬(d.length > MAX_MSG_SIZE ∨ d.length = 0))
    (hts : s.tail ≤ s.head) (hfit : s.head + flen d ≤ B) :
    tryWrite B s d =
      ({ s with buf := writeFrame s.buf s.head d (flen d) MAGIC_VALID
                head := s.head + flen d
                statsWritten := s.statsWritten + 1 }, true) := by
  unfold tryWrite
  simp only [tryWriteP, readPtr]
  rw [if_neg hsz, if_pos hts,
      if_pos (show s.head + alignUp8 (8 + d.length) ≤ B from hfit),
      if_pos (Nat.le_refl d.length), List.take_length]
  rfl

theorem tryWrite_wrap {B : Nat} {s : RB} {d : List Nat}
    (hsz : ¬(d.length > MAX_MSG_SIZE ∨ d.length = 0))
    (hts : s.tail ≤ s.head) (hnfit : ¬(s.head + flen d ≤ B))
    (hwrap : flen d < s.tail) :
    tryWrite B s d =
      ({ s with
           buf := writeFrame
             (if 8 ≤ B - s.head then
                wbytes s.buf s.head (le32 (B - s.head) ++ le32 MAGIC_PADDING)
              else s.buf) 0 d (flen d) MAGIC_VALID
           head := flen d
           statsWritten := s.statsWritten + 1 }, true) := by
  unfold tryWrite
  simp only [tryWriteP, readPtr]
  rw [if_neg hsz, if_pos hts,
      if_neg (show ¬(s.head + alignUp8 (8 + d.length) ≤ B) from hnfit),
      if_pos (show alignUp8 (8 + d.length) < s.tail from hwrap),
      if_pos (Nat.le_refl d.length), List.take_length]
  rfl

theorem tryWrite_drop_wrap {B : Nat} {s : RB} {d : List Nat}
    (hsz : ¬(d.length > MAX_MSG_SIZE ∨ d.length = 0))
    (hts : s.tail ≤ s.head) (hnfit : ¬(s.head + flen d ≤ B))
    (hnwrap : ¬(flen d < s.tail)) :
    tryWrite B s d = ({ s with statsDropped := s.statsDropped + 1 }, false) := by
  unfold tryWrite
  simp only [tryWriteP, readPtr]
  rw [if_neg hsz, if_pos hts,
      if_neg (show ¬(s.head + alignUp8 (8 + d.length) ≤ B) from hnfit),
      if_neg (show ¬(alignUp8 (8 + d.length) < s.tail) from hnwrap)]
  rfl

theorem tryWrite_mid {B : Nat} {s : RB} {d : List Nat}
    (hsz : ¬(d.length > MAX_MSG_SIZE ∨ d.length = 0))
    (hnts : ¬(s.tail ≤ s.head)) (hfit2 : s.head + flen d < s.tail) :
    tryWrite B s d =
      ({ s with buf := writeFrame s.buf s.head d (flen d) MAGIC_VALID
                head := s.head + flen d
                statsWritten := s.statsWritten + 1 }, true) := by
  unfold tryWrite
  simp only [tryWriteP, readPtr]
  rw [if_neg hsz, if_neg hnts,
      if_pos (show s.head + alignUp8 (8 + d.length) < s.tail from hfit2),
      if_pos (Nat.le_refl d.length), List.take_length]
  rfl

theorem tryWrite_drop_mid {B : Nat} {s : RB} {d : List Nat}
    (hsz : ¬(d.length > MAX_MSG_SIZE ∨ d.length = 0))
    (hnts : ¬(s.tail ≤ s.head)) (hnfit2 : ¬(s.head + flen d < s.tail)) :
    tryWrite B s d = ({ s with statsDropped := s.statsDropped + 1 }, false) := by
  unfold tryWrite
  simp only [tryWriteP, readPtr]
  rw [if_neg hsz, if_neg hnts,
      if_neg (show ¬(s.head + alignUp8 (8 + d.length) < s.tail) from hnfit2)]
  rfl

theorem finishRead_valid {s : RB} {t len : Nat} {m : List Nat}
    (hfr : frameAt s.buf t m) (hlen : len = m.length) :
    finishRead s t len MAGIC_VALID =
      ({ s with tail := t + flen m, statsRead := s.statsRead + 1 },
       some m) := by
  subst hlen
  unfold finishRead
  rw [if_neg (fun h => h rfl),
      if_neg (by have := hfr.2.2.2.1; omega),
      list_extract (fun i hi => hfr.2.2.2.2 i hi)]
  rfl

theorem tryRead_empty {s : RB} (hte : s.tail = s.head) :
    tryRead s = (s, none) := by
  unfold tryRead
  rw [if_pos hte]

theorem tryRead_frame {s : RB} {m : List Nat} (hne : ¬ s.tail = s.head)
    (hfr : frameAt s.buf s.tail m) :
    tryRead s = ({ s with tail := s.tail + flen m,
                          statsRead := s.statsRead + 1 }, some m) := by
  simp only [tryRead]
  rw [if_neg hne, hfr.2.1,
      if_neg (show ¬(MAGIC_VALID = MAGIC_PADDING) by decide),
      finishRead_valid hfr hfr.1]

theorem tryRead_pad {s : RB} {m2 : List Nat} (hne : ¬ s.tail = s.head)
    (hq : rd32 s.buf (s.tail + 4) = MAGIC_PADDING)
    (hfr2 : frameAt s.buf 0 m2) (hh : ¬ (0 = s.head)) :
    tryRead s = ({ s with tail := 0 + flen m2,
                          statsRead := s.statsRead + 1 }, some m2) := by
  have h4 : rd32 s.buf 4 = MAGIC_VALID := by
    have h := hfr2.2.1
    rwa [Nat.zero_add] at h
  simp only [tryRead]
  rw [if_neg hne, hq, if_pos rfl, if_neg hh, h4,
      @finishRead_valid ({ s with tail := 0 }) 0 (rd32 s.buf 0) m2 hfr2
        hfr2.1]

theorem tryRead_dead {s : RB} (hne : ¬ s.tail = s.head)
    (hz4 : rd32 s.buf (s.tail + 4) = 0) : tryRead s = (s, none) := by
  simp only [tryRead]
  rw [if_neg hne, hz4, if_neg (show ¬((0 : Nat) = MAGIC_PADDING) by decide)]
  unfold finishRead
  rw [if_pos (show (0 : Nat) ≠ MAGIC_VALID by decide)]

theorem Inv_init (B : Nat) : Inv B rbInit [] [] :=
  ⟨fun _ _ => rfl, ⟨0, rfl⟩, ⟨0, rfl⟩,
    Or.inl ⟨rfl, Nat.le_refl 0, Nat.zero_le B, rfl⟩⟩

/-- Effect of one producer call on the invariant: a rejected write changes
no invariant-relevant state; a successful one appends its payload to the
pending list, or to the doomed list when it wraps past a pad-less
boundary (`head = BUFFER_SIZE`, so no padding frame is written). -/
theorem write_step {B : Nat} (hB : 8 ∣ B) {s : RB}
    {pend doom : List (List Nat)} (hinv : Inv B s pend doom)
    (d : List Nat) :
    ((tryWrite B s d).2 = false ∧ Inv B (tryWrite B s d).1 pend doom) ∨
    ((tryWrite B s d).2 = true ∧ doom = [] ∧
      Inv B (tryWrite B s d).1 (pend ++ [d]) []) ∨
    ((tryWrite B s d).2 = true ∧ Inv B (tryWrite B s d).1 pend (doom ++ [d])) := by
  obtain ⟨hz, hh8, ht8, hcase⟩ := hinv
  by_cases hsz : d.length > MAX_MSG_SIZE ∨ d.length = 0
  · rw [tryWrite_reject hsz]
    exact Or.inl ⟨rfl, hz, hh8, ht8, hcase⟩
  · have hlen1 : 1 ≤ d.length := by
      by_contra hcon
      exact hsz (Or.inr (by omega))
    have hlen2 : d.length ≤ MAX_MSG_SIZE := by
      by_contra hcon
      exact hsz (Or.inl (by omega))
    have hfl : 8 + d.length ≤ flen d := flen_lower d
    have hfl16 : 16 ≤ flen d := flen_sixteen hlen1
    have hfl8 : 8 ∣ flen d := flen_dvd d
    rcases hcase with ⟨hdoom, htle, hhle, hch⟩ |
      ⟨hdoom, q, p1, p2, hpe, hlt, htq, hqB, hch1, hpadq, hch2, hp2⟩ |
      ⟨hdoomne, hlt, htB, hchP, hchD⟩
    · -- linear region [tail, head)
      by_cases hfit : s.head + flen d ≤ B
      · rw [tryWrite_fit hsz htle hfit]
        refine Or.inr (Or.inl ⟨rfl, hdoom, ?_⟩)
        refine ⟨?_, dvd_add hh8 hfl8, ht8,
          Or.inl ⟨rfl, Nat.le_trans htle (Nat.le_add_right _ _), hfit,
            chain_append
              (chain_congr hch (fun j hj1 hj2 => writeFrame_out (Or.inl hj2)))
              (frameAt_writeFrame hlen1 hlen2)⟩⟩
        intro i hi
        show writeFrame s.buf s.head d (flen d) MAGIC_VALID i = 0
        rw [writeFrame_out (Or.inr (by omega))]
        exact hz i hi
      · by_cases hwrap : flen d < s.tail
        · by_cases hpad : 8 ≤ B - s.head
          · rw [tryWrite_wrap hsz htle hfit hwrap, if_pos hpad]
            refine Or.inr (Or.inl ⟨rfl, hdoom, ?_⟩)
            refine ⟨?_, hfl8, ht8, Or.inr (Or.inl ⟨rfl, s.head, pend, [d],
              rfl, hwrap, htle, by omega, ?_, ?_, ?_, by simp⟩)⟩
            · intro i hi
              show writeFrame
                  (wbytes s.buf s.head (le32 (B - s.head) ++ le32 MAGIC_PADDING))
                  0 d (flen d) MAGIC_VALID i = 0
              rw [writeFrame_out (Or.inr (by omega)),
                  pad_out _ _ (Or.inr (by omega))]
              exact hz i hi
            · have hP : chain
                  (wbytes s.buf s.head (le32 (B - s.head) ++ le32 MAGIC_PADDING))
                  s.tail s.head pend :=
                chain_congr hch (fun j hj1 hj2 => pad_out _ _ (Or.inl hj2))
              exact chain_congr hP (fun j hj1 hj2 =>
                writeFrame_out (Or.inr (by
                  have h1 : s.tail ≤ j := hj1
                  omega)))
            · show rd32 (writeFrame
                  (wbytes s.buf s.head (le32 (B - s.head) ++ le32 MAGIC_PADDING))
                  0 d (flen d) MAGIC_VALID) (s.head + 4) = MAGIC_PADDING
              rw [rd32_congr (fun j hj1 hj2 => writeFrame_out (Or.inr (by omega))),
                  rd32_pad_second]
              decide
            · exact ⟨frameAt_writeFrame hlen1 hlen2, Nat.zero_add _⟩
          · have hhB : s.head = B := by omega
            rw [tryWrite_wrap hsz htle hfit hwrap, if_neg hpad]
            refine Or.inr (Or.inr ⟨rfl, ?_⟩)
            rw [hdoom]
            refine ⟨?_, hfl8, ht8, Or.inr (Or.inr ⟨by simp,
              hwrap, show s.tail ≤ B by omega, ?_, ?_⟩)⟩
            · intro i hi
              show writeFrame s.buf 0 d (flen d) MAGIC_VALID i = 0
              rw [writeFrame_out (Or.inr (by omega))]
              exact hz i hi
            · exact chain_congr
                (show chain s.buf s.tail B pend by rw [← hhB]; exact hch)
                (fun j hj1 hj2 => writeFrame_out (Or.inr (by
                  have h1 : s.tail ≤ j := hj1
                  omega)))
            · exact ⟨frameAt_writeFrame hlen1 hlen2, Nat.zero_add _⟩
        · rw [tryWrite_drop_wrap hsz htle hfit hwrap]
          exact Or.inl ⟨rfl, hz, hh8, ht8,
            Or.inl ⟨hdoom, htle, hhle, hch⟩⟩
    · -- wrapped region behind a padding frame
      have hnts : ¬(s.tail ≤ s.head) := by omega
      by_cases hfit2 : s.head + flen d < s.tail
      · rw [tryWrite_mid hsz hnts hfit2]
        refine Or.inr (Or.inl ⟨rfl, hdoom, ?_⟩)
        refine ⟨?_, dvd_add hh8 hfl8, ht8, Or.inr (Or.inl ⟨rfl, q, p1,
          p2 ++ [d], ?_, hfit2, htq, hqB, ?_, ?_, ?_, by simp⟩)⟩
        · intro i hi
          show writeFrame s.buf s.head d (flen d) MAGIC_VALID i = 0
          rw [writeFrame_out (Or.inr (by omega))]
          exact hz i hi
        · rw [hpe, List.append_assoc]
        · exact chain_congr hch1
            (fun j hj1 hj2 => writeFrame_out (Or.inr (by
              have h1 : s.tail ≤ j := hj1
              omega)))
        · show rd32 (writeFrame s.buf s.head d (flen d) MAGIC_VALID)
              (q + 4) = MAGIC_PADDING
          rw [rd32_congr (fun j hj1 hj2 => writeFrame_out (Or.inr (by omega)))]
          exact hpadq
        · exact chain_append
            (chain_congr hch2 (fun j hj1 hj2 => writeFrame_out (Or.inl hj2)))
            (frameAt_writeFrame hlen1 hlen2)
      · rw [tryWrite_drop_mid hsz hnts hfit2]
        exact Or.inl ⟨rfl, hz, hh8, ht8, Or.inr (Or.inl ⟨hdoom, q, p1, p2,
          hpe, hlt, htq, hqB, hch1, hpadq, hch2, hp2⟩)⟩
    · -- stuck shape: consumer header at or beyond the array end
      have hnts : ¬(s.tail ≤ s.head) := by omega
      by_cases hfit2 : s.head + flen d < s.tail
      · rw [tryWrite_mid hsz hnts hfit2]
        refine Or.inr (Or.inr ⟨rfl, ?_⟩)
        refine ⟨?_, dvd_add hh8 hfl8, ht8, Or.inr (Or.inr ⟨by simp,
          hfit2, htB, ?_, ?_⟩)⟩
        · intro i hi
          show writeFrame s.buf s.head d (flen d) MAGIC_VALID i = 0
          rw [writeFrame_out (Or.inr (by omega))]
          exact hz i hi
        · exact chain_congr hchP
            (fun j hj1 hj2 => writeFrame_out (Or.inr (by
              have h1 : s.tail ≤ j := hj1
              omega)))
        · exact chain_append
            (chain_congr hchD (fun j hj1 hj2 => writeFrame_out (Or.inl hj2)))
            (frameAt_writeFrame hlen1 hlen2)
      · rw [tryWrite_drop_mid hsz hnts hfit2]
        exact Or.inl ⟨rfl, hz, hh8, ht8, Or.inr (Or.inr ⟨hdoomne, hlt, htB,
          hchP, hchD⟩)⟩

/-- Effect of one consumer call on the invariant: a failing read leaves the
state unchanged and happens exactly when the pending list is empty; a
successful one returns the head of the pending list. -/
theorem read_step {B : Nat} {s : RB} {pend doom : List (List Nat)}
    (hinv : Inv B s pend doom) :
    (pend = [] ∧ (tryRead s).2 = none ∧ (tryRead s).1 = s) ∨
    (∃ m pend2, pend = m :: pend2 ∧ (tryRead s).2 = some m ∧
      Inv B (tryRead s).1 pend2 doom) := by
  obtain ⟨hz, hh8, ht8, hcase⟩ := hinv
  rcases hcase with ⟨hdoom, htle, hhle, hch⟩ |
    ⟨hdoom, q, p1, p2, hpe, hlt, htq, hqB, hch1, hpadq, hch2, hp2⟩ |
    ⟨hdoomne, hlt, htB, hchP, hchD⟩
  · by_cases hte : s.tail = s.head
    · have hpnil : pend = [] := chain_eq_nil (by rw [hte] at hch; exact hch)
      rw [tryRead_empty hte]
      exact Or.inl ⟨hpnil, rfl, rfl⟩
    · cases pend with
      | nil => exact absurd hch hte
      | cons m pend2 =>
        obtain ⟨hfr, hchr⟩ := hch
        rw [tryRead_frame hte hfr]
        exact Or.inr ⟨m, pend2, rfl, rfl, hz, hh8,
          dvd_add ht8 (flen_dvd m),
          Or.inl ⟨hdoom, chain_le hchr, hhle, hchr⟩⟩
  · have hne : ¬ s.tail = s.head := by omega
    cases p1 with
    | cons m p1r =>
      obtain ⟨hfr, hch1r⟩ := hch1
      rw [tryRead_frame hne hfr]
      refine Or.inr ⟨m, p1r ++ p2, by rw [hpe, List.cons_append], rfl, ?_⟩
      exact ⟨hz, hh8, dvd_add ht8 (flen_dvd m), Or.inr (Or.inl ⟨hdoom, q,
        p1r, p2, rfl, show s.head < s.tail + flen m by omega,
        chain_le hch1r, hqB, hch1r, hpadq, hch2, hp2⟩)⟩
    | nil =>
      have hq : s.tail = q := hch1
      cases p2 with
      | nil => exact absurd rfl hp2
      | cons m2 p2r =>
        obtain ⟨hfr2, hch2r⟩ := hch2
        have h16 : 16 ≤ flen m2 := flen_sixteen hfr2.2.2.1
        have hh0 : 0 + flen m2 ≤ s.head := chain_le hch2r
        have hpadt : rd32 s.buf (s.tail + 4) = MAGIC_PADDING := by
          rw [hq]
          exact hpadq
        rw [tryRead_pad hne hpadt hfr2 (show ¬ (0 = s.head) by omega)]
        refine Or.inr ⟨m2, p2r, by rw [hpe, List.nil_append], rfl, ?_⟩
        exact ⟨hz, hh8,
          show 8 ∣ 0 + flen m2 by have := flen_dvd m2; omega,
          Or.inl ⟨hdoom, hh0, show s.head ≤ B by omega, hch2r⟩⟩
  · have hne : ¬ s.tail = s.head := by omega
    cases pend with
    | nil =>
      have htB2 : s.tail = B := hchP
      have hz4 : rd32 s.buf (s.tail + 4) = 0 :=
        rd32_zero (fun j hj => hz j (by omega))
      rw [tryRead_dead hne hz4]
      exact Or.inl ⟨rfl, rfl, rfl⟩
    | cons m pendr =>
      obtain ⟨hfr, hchPr⟩ := hchP
      rw [tryRead_frame hne hfr]
      exact Or.inr ⟨m, pendr, rfl, rfl, hz, hh8,
        dvd_add ht8 (flen_dvd m),
        Or.inr (Or.inr ⟨hdoomne, show s.head < s.tail + flen m by omega,
          chain_le hchPr, hchPr, hchD⟩)⟩

theorem run_write_cons (B : Nat) (s : RB) (d : List Nat) (ops : List Op) :
    run B s (Op.write d :: ops) =
      ((run B (tryWrite B s d).1 ops).1,
       (if (tryWrite B s d).2 then d :: (run B (tryWrite B s d).1 ops).2.1
        else (run B (tryWrite B s d).1 ops).2.1),
       (run B (tryWrite B s d).1 ops).2.2) := rfl

theorem run_read_cons (B : Nat) (s : RB) (ops : List Op) :
    run B s (Op.read :: ops) =
      ((run B (tryRead s).1 ops).1,
       (run B (tryRead s).1 ops).2.1,
       (match (tryRead s).2 with
        | some m => m :: (run B (tryRead s).1 ops).2.2
        | none => (run B (tryRead s).1 ops).2.2)) := rfl

/-- Main induction: from any state satisfying the invariant, the payloads
delivered by the reads of any operation sequence form an initial segment
of the pending payloads followed by the successful writes; and if doomed
payloads exist, the reads stay within the pending list. -/
theorem run_keeps_order {B : Nat} (hB : 8 ∣ B) :
    ∀ (ops : List Op) (s : RB) (pend doom : List (List Nat)),
      Inv B s pend doom →
      (∃ ks, pend ++ (run B s ops).2.1 = (run B s ops).2.2 ++ ks) ∧
      (doom ≠ [] → ∃ ks, pend = (run B s ops).2.2 ++ ks) := by
  intro ops
  induction ops with
  | nil =>
    intro s pend doom hinv
    exact ⟨⟨pend, by simp [run]⟩, fun _ => ⟨pend, by simp [run]⟩⟩
  | cons op ops ih =>
    intro s pend doom hinv
    cases op with
    | write d =>
      rcases write_step hB hinv d with ⟨hres, hinv2⟩ |
        ⟨hres, hdoom, hinv2⟩ | ⟨hres, hinv2⟩
      · obtain ⟨⟨ks, hks⟩, h2⟩ := ih (tryWrite B s d).1 pend doom hinv2
        refine ⟨⟨ks, ?_⟩, fun hd => ?_⟩
        · rw [run_write_cons, hres, if_neg Bool.false_ne_true]
          exact hks
        · obtain ⟨ks2, hks2⟩ := h2 hd
          refine ⟨ks2, ?_⟩
          rw [run_write_cons]
          exact hks2
      · subst hdoom
        obtain ⟨⟨ks, hks⟩, _⟩ := ih (tryWrite B s d).1 (pend ++ [d]) [] hinv2
        refine ⟨⟨ks, ?_⟩, fun hd => absurd rfl hd⟩
        rw [run_write_cons, hres, if_pos rfl]
        simpa using hks
      · obtain ⟨⟨ks, hks⟩, h2⟩ := ih (tryWrite B s d).1 pend (doom ++ [d]) hinv2
        obtain ⟨ks2, hks2⟩ := h2 (by simp)
        refine ⟨⟨ks2 ++ (d :: (run B (tryWrite B s d).1 ops).2.1), ?_⟩,
          fun hd => ⟨ks2, ?_⟩⟩
        · rw [run_write_cons, hres, if_pos rfl, hks2, List.append_assoc]
        · rw [run_write_cons]
          exact hks2
    | read =>
      rcases read_step hinv with ⟨hpe, hres, hst⟩ |
        ⟨m, pend2, hpe, hres, hinv2⟩
      · obtain ⟨⟨ks, hks⟩, h2⟩ := ih s pend doom
          (show Inv B s pend doom from hinv)
        refine ⟨⟨ks, ?_⟩, fun hd => ?_⟩
        · rw [run_read_cons, hres, hst]
          exact hks
        · obtain ⟨ks2, hks2⟩ := h2 hd
          refine ⟨ks2, ?_⟩
          rw [run_read_cons, hres, hst]
          exact hks2
      · obtain ⟨⟨ks, hks⟩, h2⟩ := ih (tryRead s).1 pend2 doom hinv2
        refine ⟨⟨ks, ?_⟩, fun hd => ?_⟩
        · rw [run_read_cons, hres, hpe]
          exact congrArg (List.cons m) hks
        · obtain ⟨ks2, hks2⟩ := h2 hd
          refine ⟨ks2, ?_⟩
          rw [run_read_cons, hres, hpe]
          exact congrArg (List.cons m) hks2

end Ring

namespace Registry

theorem string_append_left_cancel {a b c : String} (h : a ++ b = a ++ c) :
    b = c := by
  have hd := congrArg String.data h
  rw [String.data_append, String.data_append] at hd
  exact String.ext (List.append_cancel_left hd)

/-- For descriptors of the same group, equal capability strings mean equal
topics. -/
theorem getCapability_eq_topic {d e : ServiceDescriptor}
    (hg : d.group = e.group) :
    d.getCapability = e.getCapability ↔ d.topic = e.topic := by
  unfold ServiceDescriptor.getCapability
  rw [hg]
  exact ⟨fun h => string_append_left_cancel h, fun h => by rw [h]⟩

/-- The scan condition under equal groups is exactly an identity match. -/
theorem scanMatch_iff_isId {d svc : ServiceDescriptor}
    (hg : d.group = svc.group) :
    (d.node_id = svc.node_id ∧ d.getCapability = svc.getCapability) ↔
      isId svc.node_id svc.group svc.topic d = true := by
  rw [isId]
  simp only [Bool.and_eq_true, beq_iff_eq]
  constructor
  · intro ⟨h1, h2⟩
    exact ⟨⟨h1, hg⟩, (getCapability_eq_topic hg).mp h2⟩
  · intro ⟨⟨h1, _⟩, h3⟩
    exact ⟨h1, (getCapability_eq_topic hg).mpr h3⟩

theorem mem_insertSvcScan {svc : ServiceDescriptor} :
    ∀ {vec d}, d ∈ insertSvcScan svc vec → d ∈ vec ∨ d = svc := by
  intro vec
  induction vec with
  | nil =>
    intro d hd
    simp [insertSvcScan] at hd
    exact Or.inr hd
  | cons x xs ih =>
    intro d hd
    unfold insertSvcScan at hd
    split at hd
    · split at hd
      · exact Or.inl hd
      · split at hd
        · exact Or.inl hd
        · split at hd
          · rcases List.mem_cons.mp hd with h | h
            · exact Or.inr h
            · exact Or.inl (List.mem_cons_of_mem x h)
          · exact Or.inl hd
    · rcases List.mem_cons.mp hd with h | h
      · exact Or.inl (h ▸ List.mem_cons_self x xs)
      · rcases ih h with h' | h'
        · exact Or.inl (List.mem_cons_of_mem x h')
        · exact Or.inr h'

theorem insertSvcScan_group {svc : ServiceDescriptor} {g : String}
    (hs : svc.group = g) :
    ∀ {vec}, (∀ d ∈ vec, d.group = g) →
      ∀ d ∈ insertSvcScan svc vec, d.group = g := by
  intro vec hv d hd
  rcases mem_insertSvcScan hd with h | h
  · exact hv d h
  · exact h ▸ hs

theorem insertSvcScan_pairwise {svc : ServiceDescriptor} :
    ∀ {vec}, (∀ d ∈ vec, d.group = svc.group) → vec.Pairwise distinctNT →
      (insertSvcScan svc vec).Pairwise distinctNT := by
  intro vec
  induction vec with
  | nil => intro _ _; simp [insertSvcScan]
  | cons x xs ih =>
    intro hg hp
    rcases List.pairwise_cons.mp hp with ⟨hx, hxs⟩
    unfold insertSvcScan
    split
    · rename_i hm
      have hxg : x.group = svc.group := hg x (List.mem_cons_self x xs)
      have hxt : x.topic = svc.topic := (getCapability_eq_topic hxg).mp hm.2
      split
      · exact hp
      · split
        · exact hp
        · split
          · refine List.pairwise_cons.mpr ⟨fun y hy => ?_, hxs⟩
            intro ⟨h1, h2⟩
            exact hx y hy ⟨hm.1 ▸ h1, hxt ▸ h2⟩
          · exact hp
    · rename_i hm
      refine List.pairwise_cons.mpr ⟨fun y hy => ?_, ih (fun d hd => hg d (List.mem_cons_of_mem x hd)) hxs⟩
      rcases mem_insertSvcScan hy with h | h
      · exact hx y h
      · rw [h]
        intro ⟨h1, h2⟩
        have hxg : x.group = svc.group := hg x (List.mem_cons_self x xs)
        exact hm ⟨h1, (getCapability_eq_topic hxg).mpr h2⟩

theorem isId_iff {n g t : String} {d : ServiceDescriptor} :
    isId n g t d = true ↔ (d.node_id = n ∧ d.group = g) ∧ d.topic = t := by
  unfold isId
  simp [Bool.and_eq_true, beq_iff_eq]

/-- Behind an identity element of a `distinctNT`-pairwise vector no further
element carries the identity. -/
theorem filter_isId_nil {n g t : String} {x : ServiceDescriptor}
    {xs : List ServiceDescriptor} (hx : isId n g t x = true)
    (h1 : ∀ y ∈ xs, distinctNT x y) :
    xs.filter (isId n g t) = [] := by
  rw [List.filter_eq_nil_iff]
  intro y hy hyId
  rcases isId_iff.mp hx with ⟨⟨hxn, _⟩, hxt⟩
  rcases isId_iff.mp hyId with ⟨⟨hyn, _⟩, hyt⟩
  exact h1 y hy ⟨hxn.trans hyn.symm, hxt.trans hyt.symm⟩

/-- Registering a `SHARED_MEMORY` descriptor leaves exactly one descriptor
with its identity in the vector, and that descriptor's transport is
`SHARED_MEMORY`. -/
theorem insertSvcScan_shm {svc : ServiceDescriptor} {n g t : String}
    (hn : svc.node_id = n) (hgr : svc.group = g) (ht : svc.topic = t)
    (htr : svc.transport = TransportType.SHARED_MEMORY) :
    ∀ {vec}, (∀ d ∈ vec, d.group = svc.group) → vec.Pairwise distinctNT →
      ∃ d, (insertSvcScan svc vec).filter (isId n g t) = [d] ∧
        d.transport = TransportType.SHARED_MEMORY := by
  have hsvcId : isId n g t svc = true := isId_iff.mpr ⟨⟨hn, hgr⟩, ht⟩
  intro vec
  induction vec with
  | nil =>
    intro _ _
    refine ⟨svc, ?_, htr⟩
    simp [insertSvcScan, List.filter, hsvcId]
  | cons x xs ih =>
    intro hg hp
    rcases List.pairwise_cons.mp hp with ⟨hx, hxs⟩
    have hxg : x.group = svc.group := hg x (List.mem_cons_self x xs)
    by_cases hm : x.node_id = svc.node_id ∧ x.getCapability = svc.getCapability
    · have hxId : isId n g t x = true := by
        rw [← hn, ← hgr, ← ht]
        exact (scanMatch_iff_isId hxg).mp hm
      have hnil : xs.filter (isId n g t) = [] := filter_isId_nil hxId hx
      unfold insertSvcScan
      rw [if_pos hm]
      by_cases hb1 : x.transport = svc.transport
      · rw [if_pos hb1]
        exact ⟨x, by simp [List.filter_cons, hxId, hnil], by rw [hb1, htr]⟩
      · rw [if_neg hb1]
        by_cases hb2 : x.transport = TransportType.SHARED_MEMORY
        · rw [if_pos hb2]
          exact ⟨x, by simp [List.filter_cons, hxId, hnil], hb2⟩
        · rw [if_neg hb2, if_pos htr]
          exact ⟨svc, by simp [List.filter_cons, hsvcId, hnil], htr⟩
    · have hxId : isId n g t x = false := by
        cases h : isId n g t x
        · rfl
        · rw [← hn, ← hgr, ← ht] at h
          exact absurd ((scanMatch_iff_isId hxg).mpr h) hm
      unfold insertSvcScan
      rw [if_neg hm]
      rcases ih (fun d hd => hg d (List.mem_cons_of_mem x hd)) hxs with ⟨d, hd, hdt⟩
      exact ⟨d, by simp [List.filter_cons, hxId, hd], hdt⟩

/-- Registering a non-`SHARED_MEMORY` descriptor whose identity is already
present with `SHARED_MEMORY` transport leaves the vector unchanged. -/
theorem insertSvcScan_noop {svc : ServiceDescriptor} {n g t : String}
    (hn : svc.node_id = n) (hgr : svc.group = g) (ht : svc.topic = t)
    (htr : svc.transport ≠ TransportType.SHARED_MEMORY) :
    ∀ {vec}, (∀ d ∈ vec, d.group = svc.group) →
      (∀ d ∈ vec, isId n g t d = true →
        d.transport = TransportType.SHARED_MEMORY) →
      (∃ d ∈ vec, isId n g t d = true) →
      insertSvcScan svc vec = vec := by
  intro vec
  induction vec with
  | nil =>
    intro _ _ hex
    rcases hex with ⟨d, hd, _⟩
    cases hd
  | cons x xs ih =>
    intro hg hall hex
    have hxg : x.group = svc.group := hg x (List.mem_cons_self x xs)
    by_cases hm : x.node_id = svc.node_id ∧ x.getCapability = svc.getCapability
    · have hxId : isId n g t x = true := by
        rw [← hn, ← hgr, ← ht]
        exact (scanMatch_iff_isId hxg).mp hm
      have hxtr : x.transport = TransportType.SHARED_MEMORY :=
        hall x (List.mem_cons_self x xs) hxId
      unfold insertSvcScan
      rw [if_pos hm, if_neg (by rw [hxtr]; exact fun h => htr h.symm), if_pos hxtr]
    · have hxId : isId n g t x = false := by
        cases h : isId n g t x
        · rfl
        · rw [← hn, ← hgr, ← ht] at h
          exact absurd ((scanMatch_iff_isId hxg).mpr h) hm
      unfold insertSvcScan
      rw [if_neg hm]
      congr 1
      apply ih (fun d hd => hg d (List.mem_cons_of_mem x hd))
        (fun d hd => hall d (List.mem_cons_of_mem x hd))
      rcases hex with ⟨d, hd, hdId⟩
      rcases List.mem_cons.mp hd with h | h
      · rw [h, hxId] at hdId
        cases hdId
      · exact ⟨d, h, hdId⟩

theorem WFtbl_cons {k : String} {vec : List ServiceDescriptor}
    {rest : ServiceTable} (h : WFtbl ((k, vec) :: rest)) :
    WFtbl rest ∧ (∀ b ∈ rest, k < b.1) ∧ (∀ d ∈ vec, d.group = k) ∧
      vec.Pairwise distinctNT := by
  obtain ⟨hkeys, hgr, hpw⟩ := h
  rcases List.pairwise_cons.mp hkeys with ⟨h1, h2⟩
  exact ⟨⟨h2, fun p hp => hgr p (List.mem_cons_of_mem _ hp),
    fun p hp => hpw p (List.mem_cons_of_mem _ hp)⟩,
    h1, hgr (k, vec) (List.mem_cons_self _ _),
    hpw (k, vec) (List.mem_cons_self _ _)⟩

theorem registerService_mem {g : String} {svc : ServiceDescriptor} :
    ∀ {tbl p}, p ∈ registerService g svc tbl → p ∈ tbl ∨ p.1 = g := by
  intro tbl
  induction tbl with
  | nil =>
    intro p hp
    simp [registerService] at hp
    rw [hp]
    exact Or.inr rfl
  | cons q rest ih =>
    intro p hp
    rcases q with ⟨k, vec⟩
    unfold registerService at hp
    split at hp
    · rcases List.mem_cons.mp hp with h | h
      · rw [h]; exact Or.inr rfl
      · exact Or.inl h
    · split at hp
      · rename_i h2
        rcases List.mem_cons.mp hp with h | h
        · rw [h]; exact Or.inr h2.symm
        · exact Or.inl (List.mem_cons_of_mem _ h)
      · rcases List.mem_cons.mp hp with h | h
        · exact Or.inl (h ▸ List.mem_cons_self _ _)
        · rcases ih h with h' | h'
          · exact Or.inl (List.mem_cons_of_mem _ h')
          · exact Or.inr h'

theorem registerService_WF {g : String} {svc : ServiceDescriptor}
    (hm : svc.group = g) :
    ∀ {tbl}, WFtbl tbl → WFtbl (registerService g svc tbl) := by
  intro tbl
  induction tbl with
  | nil =>
    intro _
    refine ⟨by simp [registerService], ?_, ?_⟩
    · intro p hp d hd
      simp [registerService] at hp
      rw [hp] at hd ⊢
      rcases mem_insertSvcScan hd with h | h
      · cases h
      · exact h ▸ hm
    · intro p hp
      simp [registerService] at hp
      rw [hp]
      exact insertSvcScan_pairwise (by simp) (by simp)
  | cons q rest ih =>
    rcases q with ⟨k, vec⟩
    intro hwf
    obtain ⟨hwfr, hk1, hgv, hpv⟩ := WFtbl_cons hwf
    unfold registerService
    by_cases h1 : g < k
    · rw [if_pos ((strLt_iff g k).mpr h1)]
      refine ⟨?_, ?_, ?_⟩
      · refine List.pairwise_cons.mpr ⟨?_, hwf.1⟩
        intro b hb
        rcases List.mem_cons.mp hb with h | h
        · rw [h]; exact h1
        · exact lt_trans h1 (hk1 b h)
      · intro p hp d hd
        rcases List.mem_cons.mp hp with h | h
        · rw [h] at hd ⊢
          rcases mem_insertSvcScan hd with h' | h'
          · cases h'
          · exact h' ▸ hm
        · exact hwf.2.1 p h d hd
      · intro p hp
        rcases List.mem_cons.mp hp with h | h
        · rw [h]
          exact insertSvcScan_pairwise (by simp) (by simp)
        · exact hwf.2.2 p h
    · rw [if_neg (fun hc => h1 ((strLt_iff g k).mp hc))]
      by_cases h2 : g = k
      · rw [if_pos h2]
        subst h2
        refine ⟨?_, ?_, ?_⟩
        · exact List.pairwise_cons.mpr ⟨hk1, hwfr.1⟩
        · intro p hp d hd
          rcases List.mem_cons.mp hp with h | h
          · rw [h] at hd ⊢
            exact insertSvcScan_group hm (fun e he => hgv e he) d hd
          · exact hwfr.2.1 p h d hd
        · intro p hp
          rcases List.mem_cons.mp hp with h | h
          · rw [h]
            exact insertSvcScan_pairwise (fun e he => (hgv e he).trans hm.symm) hpv
          · exact hwfr.2.2 p h
      · rw [if_neg h2]
        have hkg : k < g := lt_of_le_of_ne (not_lt.mp h1) (fun h => h2 h.symm)
        refine ⟨?_, ?_, ?_⟩
        · refine List.pairwise_cons.mpr ⟨?_, (ih hwfr).1⟩
          intro b hb
          rcases registerService_mem hb with h | h
          · exact hk1 b h
          · exact h ▸ hkg
        · intro p hp d hd
          rcases List.mem_cons.mp hp with h | h
          · rw [h] at hd ⊢; exact hgv d hd
          · exact (ih hwfr).2.1 p h d hd
        · intro p hp
          rcases List.mem_cons.mp hp with h | h
          · rw [h]; exact hpv
          · exact (ih hwfr).2.2 p h

theorem lookupTbl_eq_none {g : String} :
    ∀ {tbl}, (∀ p ∈ tbl, p.1 ≠ g) → lookupTbl g tbl = none := by
  intro tbl
  induction tbl with
  | nil => intro _; rfl
  | cons q rest ih =>
    intro h
    rcases q with ⟨k, vec⟩
    unfold lookupTbl
    rw [if_neg (h (k, vec) (List.mem_cons_self _ _))]
    exact ih (fun p hp => h p (List.mem_cons_of_mem _ hp))

theorem lookupTbl_mem {g : String} {vec : List ServiceDescriptor} :
    ∀ {tbl}, lookupTbl g tbl = some vec → (g, vec) ∈ tbl := by
  intro tbl
  induction tbl with
  | nil => intro h; cases h
  | cons q rest ih =>
    intro h
    rcases q with ⟨k, v⟩
    unfold lookupTbl at h
    split at h
    · rename_i hk
      injection h with h
      rw [← hk, ← h]
      exact List.mem_cons_self _ _
    · exact List.mem_cons_of_mem _ (ih h)

/-- The bucket a lookup returns consists of descriptors of that group. -/
theorem bucket_group {g : String} {tbl : ServiceTable} (hwf : WFtbl tbl) :
    ∀ d ∈ (lookupTbl g tbl).getD [], d.group = g := by
  cases hl : lookupTbl g tbl with
  | none => intro d hd; cases hd
  | some vec =>
    intro d hd
    exact hwf.2.1 (g, vec) (lookupTbl_mem hl) d hd

/-- The bucket a lookup returns is `distinctNT`-pairwise. -/
theorem bucket_pairwise {g : String} {tbl : ServiceTable} (hwf : WFtbl tbl) :
    ((lookupTbl g tbl).getD []).Pairwise distinctNT := by
  cases hl : lookupTbl g tbl with
  | none => simp
  | some vec =>
    exact hwf.2.2 (g, vec) (lookupTbl_mem hl)

theorem svcsFor_cons {n g t k : String} {vec : List ServiceDescriptor}
    {rest : ServiceTable} :
    svcsFor n g t ((k, vec) :: rest) =
      vec.filter (isId n g t) ++ svcsFor n g t rest := by
  simp [svcsFor, allSvcs, List.filter_append]

theorem bucket_filter_nil {n g t k : String} {vec : List ServiceDescriptor}
    (hk : k ≠ g) (hgr : ∀ d ∈ vec, d.group = k) :
    vec.filter (isId n g t) = [] := by
  rw [List.filter_eq_nil_iff]
  intro d hd hId
  exact hk ((hgr d hd).symm.trans (isId_iff.mp hId).1.2)

theorem svcsFor_eq_nil {n g t : String} :
    ∀ {tbl}, (∀ p ∈ tbl, p.1 ≠ g) →
      (∀ p ∈ tbl, ∀ d ∈ p.2, d.group = p.1) → svcsFor n g t tbl = [] := by
  intro tbl
  induction tbl with
  | nil => intro _ _; rfl
  | cons q rest ih =>
    intro h1 h2
    rcases q with ⟨k, vec⟩
    rw [svcsFor_cons,
      bucket_filter_nil (h1 (k, vec) (List.mem_cons_self _ _))
        (h2 (k, vec) (List.mem_cons_self _ _)),
      ih (fun p hp => h1 p (List.mem_cons_of_mem _ hp))
        (fun p hp => h2 p (List.mem_cons_of_mem _ hp))]
    rfl

/-- Under well-formedness the descriptors for identity `(n, g, t)` all come
from the bucket of group `g`. -/
theorem svcsFor_eq_bucket (n t : String) {g : String} :
    ∀ {tbl}, WFtbl tbl →
      svcsFor n g t tbl = ((lookupTbl g tbl).getD []).filter (isId n g t) := by
  intro tbl
  induction tbl with
  | nil => intro _; rfl
  | cons q rest ih =>
    intro hwf
    rcases q with ⟨k, vec⟩
    obtain ⟨hwfr, hk1, hgv, _⟩ := WFtbl_cons hwf
    rw [svcsFor_cons]
    by_cases hkg : k = g
    · unfold lookupTbl
      rw [if_pos hkg]
      have : svcsFor n g t rest = [] :=
        svcsFor_eq_nil
          (fun p hp => (ne_of_gt (hkg ▸ hk1 p hp)))
          (fun p hp => hwfr.2.1 p hp)
      rw [this]
      simp
    · unfold lookupTbl
      rw [if_neg hkg, bucket_filter_nil hkg hgv, ih hwfr]
      simp

theorem lookupTbl_registerService {g : String} {svc : ServiceDescriptor} :
    ∀ {tbl}, WFtbl tbl →
      lookupTbl g (registerService g svc tbl) =
        some (insertSvcScan svc ((lookupTbl g tbl).getD [])) := by
  intro tbl
  induction tbl with
  | nil => intro _; simp [registerService, lookupTbl]
  | cons q rest ih =>
    intro hwf
    rcases q with ⟨k, vec⟩
    obtain ⟨hwfr, hk1, _, _⟩ := WFtbl_cons hwf
    unfold registerService
    by_cases h1 : g < k
    · rw [if_pos ((strLt_iff g k).mpr h1)]
      have hnone : lookupTbl g ((k, vec) :: rest) = none := by
        apply lookupTbl_eq_none
        intro p hp
        rcases List.mem_cons.mp hp with h | h
        · rw [h]; exact ne_of_gt h1
        · exact ne_of_gt (lt_trans h1 (hk1 p h))
      rw [hnone]
      simp [lookupTbl]
    · rw [if_neg (fun hc => h1 ((strLt_iff g k).mp hc))]
      by_cases h2 : g = k
      · rw [if_pos h2]
        unfold lookupTbl
        rw [if_pos h2.symm, if_pos h2.symm]
        rfl
      · rw [if_neg h2]
        unfold lookupTbl
        rw [if_neg (fun h => h2 h.symm), if_neg (fun h => h2 h.symm)]
        exact ih hwfr

theorem registerService_noop {g : String} {svc : ServiceDescriptor}
    {vec : List ServiceDescriptor} :
    ∀ {tbl}, WFtbl tbl → lookupTbl g tbl = some vec →
      insertSvcScan svc vec = vec → registerService g svc tbl = tbl := by
  intro tbl
  induction tbl with
  | nil => intro _ hb; cases hb
  | cons q rest ih =>
    intro hwf hb hins
    rcases q with ⟨k, v⟩
    obtain ⟨hwfr, hk1, _, _⟩ := WFtbl_cons hwf
    unfold registerService
    by_cases h1 : g < k
    · exfalso
      have hnone : lookupTbl g ((k, v) :: rest) = none := by
        apply lookupTbl_eq_none
        intro p hp
        rcases List.mem_cons.mp hp with h | h
        · rw [h]; exact ne_of_gt h1
        · exact ne_of_gt (lt_trans h1 (hk1 p h))
      rw [hnone] at hb
      cases hb
    · rw [if_neg (fun hc => h1 ((strLt_iff g k).mp hc))]
      by_cases h2 : g = k
      · rw [if_pos h2]
        have hveq : v = vec := by
          unfold lookupTbl at hb
          rw [if_pos h2.symm] at hb
          injection hb
        rw [hveq, hins]
      · rw [if_neg h2]
        unfold lookupTbl at hb
        rw [if_neg (fun h => h2 h.symm)] at hb
        rw [ih hwfr hb hins]

theorem WFtbl_nil : WFtbl [] :=
  ⟨List.Pairwise.nil, fun p hp => absurd hp (List.not_mem_nil p),
    fun p hp => absurd hp (List.not_mem_nil p)⟩

theorem mem_unregisterNodeServices {n : String} :
    ∀ {tbl p}, p ∈ unregisterNodeServices n tbl →
      ∃ q ∈ tbl, p.1 = q.1 ∧ p.2.Sublist q.2 := by
  intro tbl
  induction tbl with
  | nil => intro p hp; cases hp
  | cons q rest ih =>
    intro p hp
    rcases q with ⟨k, vec⟩
    unfold unregisterNodeServices at hp
    split at hp
    · rcases ih hp with ⟨q', hq', h1, h2⟩
      exact ⟨q', List.mem_cons_of_mem _ hq', h1, h2⟩
    · rcases List.mem_cons.mp hp with h | h
      · exact ⟨(k, vec), List.mem_cons_self _ _, by rw [h],
          by rw [h]; exact List.filter_sublist vec⟩
      · rcases ih h with ⟨q', hq', h1, h2⟩
        exact ⟨q', List.mem_cons_of_mem _ hq', h1, h2⟩

theorem unregisterNodeServices_WF {n : String} :
    ∀ {tbl}, WFtbl tbl → WFtbl (unregisterNodeServices n tbl) := by
  intro tbl
  induction tbl with
  | nil => intro _; exact WFtbl_nil
  | cons q rest ih =>
    intro hwf
    rcases q with ⟨k, vec⟩
    obtain ⟨hwfr, hk1, hgv, hpv⟩ := WFtbl_cons hwf
    unfold unregisterNodeServices
    split
    · exact ih hwfr
    · refine ⟨?_, ?_, ?_⟩
      · refine List.pairwise_cons.mpr ⟨?_, (ih hwfr).1⟩
        intro b hb
        rcases mem_unregisterNodeServices hb with ⟨q', hq', h1, _⟩
        exact h1 ▸ hk1 q' hq'
      · intro p hp d hd
        rcases List.mem_cons.mp hp with h | h
        · rw [h] at hd ⊢
          exact hgv d (List.mem_of_mem_filter hd)
        · exact (ih hwfr).2.1 p h d hd
      · intro p hp
        rcases List.mem_cons.mp hp with h | h
        · rw [h]
          exact hpv.filter _
        · exact (ih hwfr).2.2 p h

theorem mem_unregisterService {g : String} {svc : ServiceDescriptor} :
    ∀ {tbl p}, p ∈ unregisterService g svc tbl →
      ∃ q ∈ tbl, p.1 = q.1 ∧ p.2.Sublist q.2 := by
  intro tbl
  induction tbl with
  | nil => intro p hp; cases hp
  | cons q rest ih =>
    intro p hp
    rcases q with ⟨k, vec⟩
    unfold unregisterService at hp
    split at hp
    · split at hp
      · exact ⟨p, List.mem_cons_of_mem _ hp, rfl, List.Sublist.refl _⟩
      · rcases List.mem_cons.mp hp with h | h
        · exact ⟨(k, vec), List.mem_cons_self _ _, by rw [h],
            by rw [h]; exact List.filter_sublist vec⟩
        · exact ⟨p, List.mem_cons_of_mem _ h, rfl, List.Sublist.refl _⟩
    · rcases List.mem_cons.mp hp with h | h
      · exact ⟨(k, vec), List.mem_cons_self _ _, by rw [h], by rw [h]⟩
      · rcases ih h with ⟨q', hq', h1, h2⟩
        exact ⟨q', List.mem_cons_of_mem _ hq', h1, h2⟩

theorem unregisterService_WF {g : String} {svc : ServiceDescriptor} :
    ∀ {tbl}, WFtbl tbl → WFtbl (unregisterService g svc tbl) := by
  intro tbl
  induction tbl with
  | nil => intro _; exact WFtbl_nil
  | cons q rest ih =>
    intro hwf
    rcases q with ⟨k, vec⟩
    obtain ⟨hwfr, hk1, hgv, hpv⟩ := WFtbl_cons hwf
    unfold unregisterService
    split
    · split
      · exact hwfr
      · refine ⟨?_, ?_, ?_⟩
        · exact List.pairwise_cons.mpr ⟨hk1, hwfr.1⟩
        · intro p hp d hd
          rcases List.mem_cons.mp hp with h | h
          · rw [h] at hd ⊢
            exact hgv d (List.mem_of_mem_filter hd)
          · exact hwfr.2.1 p h d hd
        · intro p hp
          rcases List.mem_cons.mp hp with h | h
          · rw [h]
            exact hpv.filter _
          · exact hwfr.2.2 p h
    · refine ⟨?_, ?_, ?_⟩
      · refine List.pairwise_cons.mpr ⟨?_, (ih hwfr).1⟩
        intro b hb
        rcases mem_unregisterService hb with ⟨q', hq', h1, _⟩
        exact h1 ▸ hk1 q' hq'
      · intro p hp d hd
        rcases List.mem_cons.mp hp with h | h
        · rw [h] at hd ⊢; exact hgv d hd
        · exact (ih hwfr).2.1 p h d hd
      · intro p hp
        rcases List.mem_cons.mp hp with h | h
        · rw [h]; exact hpv
        · exact (ih hwfr).2.2 p h

theorem applyRegOp_WF {tbl : ServiceTable} {op : RegOp}
    (hwf : WFtbl tbl) (hm : RegOpMatched op) : WFtbl (applyRegOp tbl op) := by
  cases op with
  | reg g svc => exact registerService_WF (show g = svc.group from hm).symm hwf
  | unreg g svc => exact unregisterService_WF hwf
  | unregNode n => exact unregisterNodeServices_WF hwf
  | clear => exact WFtbl_nil

theorem foldl_applyRegOp_WF :
    ∀ (ops : List RegOp) (tbl : ServiceTable), WFtbl tbl →
      (∀ op ∈ ops, RegOpMatched op) → WFtbl (ops.foldl applyRegOp tbl) := by
  intro ops
  induction ops with
  | nil => intro tbl hwf _; exact hwf
  | cons op ops ih =>
    intro tbl hwf hm
    exact ih _ (applyRegOp_WF hwf (hm op (List.mem_cons_self _ _)))
      (fun o ho => hm o (List.mem_cons_of_mem _ ho))

theorem runReg_WF (ops : List RegOp) (hm : ∀ op ∈ ops, RegOpMatched op) :
    WFtbl (runReg ops) :=
  foldl_applyRegOp_WF ops [] WFtbl_nil hm

/-- Well-formedness implies the at-most-one-descriptor-per-identity
invariant. -/
theorem wf_atMostOne {tbl : ServiceTable} (hwf : WFtbl tbl) :
    AtMostOnePerIdentity tbl := by
  unfold AtMostOnePerIdentity allSvcs
  rw [List.pairwise_flatten]
  constructor
  · intro l hl
    rcases List.mem_map.mp hl with ⟨p, hp, hpl⟩
    rw [← hpl]
    refine (hwf.2.2 p hp).imp (fun hNT => ?_)
    intro hid
    exact hNT ⟨hid.1, hid.2.2⟩
  · rw [List.pairwise_map]
    refine List.Pairwise.imp_of_mem ?_ hwf.1
    intro p q hp hq hlt x hx y hy
    intro hid
    have hxg : x.group = p.1 := hwf.2.1 p hp x hx
    have hyg : y.group = q.1 := hwf.2.1 q hq y hy
    exact absurd (hxg.symm.trans (hid.2.1.trans hyg)) (ne_of_lt hlt)

/-- Registering a `SHARED_MEMORY` descriptor leaves exactly one descriptor
for its identity in the table, with `SHARED_MEMORY` transport. -/
theorem svcsFor_register_shm {n g t : String} {tbl : ServiceTable}
    (hwf : WFtbl tbl) (svc : ServiceDescriptor)
    (hn : svc.node_id = n) (hgr : svc.group = g) (ht : svc.topic = t)
    (htr : svc.transport = TransportType.SHARED_MEMORY) :
    ∃ d, svcsFor n g t (registerService g svc tbl) = [d] ∧
      d.transport = TransportType.SHARED_MEMORY := by
  have hwf2 := registerService_WF hgr hwf
  rw [svcsFor_eq_bucket n t hwf2, lookupTbl_registerService hwf]
  exact insertSvcScan_shm hn hgr ht htr
    (fun d hd => (bucket_group hwf d hd).trans hgr.symm)
    (bucket_pairwise hwf)

/-- Registering a non-`SHARED_MEMORY` descriptor for an identity whose only
stored descriptor has `SHARED_MEMORY` transport leaves the table
unchanged. -/
theorem registerService_ignored {n g t : String} {tbl2 : ServiceTable}
    (hwf : WFtbl tbl2) {e : ServiceDescriptor}
    (hd : svcsFor n g t tbl2 = [e])
    (hdt : e.transport = TransportType.SHARED_MEMORY)
    (svc : ServiceDescriptor) (hn : svc.node_id = n) (hgr : svc.group = g)
    (ht : svc.topic = t) (htr : svc.transport ≠ TransportType.SHARED_MEMORY) :
    registerService g svc tbl2 = tbl2 := by
  have hb := svcsFor_eq_bucket (g := g) n t hwf
  cases hl : lookupTbl g tbl2 with
  | none =>
    rw [hl] at hb
    simp only [Option.getD_none, List.filter_nil] at hb
    rw [hb] at hd
    cases hd
  | some vec =>
    rw [hl] at hb
    simp only [Option.getD_some] at hb
    rw [hd] at hb
    have hfilter : vec.filter (isId n g t) = [e] := hb.symm
    have hmem : e ∈ vec ∧ isId n g t e = true := by
      have he : e ∈ vec.filter (isId n g t) := by
        rw [hfilter]; exact List.mem_cons_self _ _
      exact ⟨List.mem_of_mem_filter he, List.of_mem_filter he⟩
    have hall : ∀ x ∈ vec, isId n g t x = true →
        x.transport = TransportType.SHARED_MEMORY := by
      intro x hx hxId
      have hxf : x ∈ vec.filter (isId n g t) := List.mem_filter.mpr ⟨hx, hxId⟩
      rw [hfilter] at hxf
      rw [List.mem_singleton.mp hxf]
      exact hdt
    have hg : ∀ x ∈ vec, x.group = svc.group := fun x hx =>
      (hwf.2.1 (g, vec) (lookupTbl_mem hl) x hx).trans hgr.symm
    exact registerService_noop hwf hl
      (insertSvcScan_noop hn hgr ht htr hg hall ⟨e, hmem.1, hmem.2⟩)

theorem flatten_unregisterNodeServices (n : String) :
    ∀ tbl : ServiceTable,
      ((unregisterNodeServices n tbl).map Prod.snd).flatten =
        ((tbl.map Prod.snd).flatten).filter (fun d => !(d.node_id == n)) := by
  intro tbl
  induction tbl with
  | nil => rfl
  | cons q rest ih =>
    rcases q with ⟨k, vec⟩
    unfold unregisterNodeServices
    by_cases hv : vec.filter (fun s => !(s.node_id == n)) = []
    · rw [if_pos hv]
      simp only [List.map_cons, List.flatten_cons, List.filter_append, hv, ih,
        List.nil_append]
    · rw [if_neg hv]
      simp only [List.map_cons, List.flatten_cons, List.filter_append, ih]

theorem lookup_unregisterNodeServices (n g : String) :
    ∀ tbl : ServiceTable, tbl.Pairwise (fun a b => a.1 ≠ b.1) →
      (lookupTbl g (unregisterNodeServices n tbl)).getD [] =
        ((lookupTbl g tbl).getD []).filter (fun d => !(d.node_id == n)) := by
  intro tbl
  induction tbl with
  | nil => intro _; rfl
  | cons q rest ih =>
    rcases q with ⟨k, vec⟩
    intro hkeys
    rcases List.pairwise_cons.mp hkeys with ⟨hk1, hkr⟩
    unfold unregisterNodeServices
    by_cases hv : vec.filter (fun s => !(s.node_id == n)) = []
    · rw [if_pos hv]
      by_cases hkg : k = g
      · have hrhs : lookupTbl g ((k, vec) :: rest) = some vec := by
          simp only [lookupTbl]; rw [if_pos hkg]
        have hlhs : lookupTbl g (unregisterNodeServices n rest) = none := by
          apply lookupTbl_eq_none
          intro p hp
          rcases mem_unregisterNodeServices hp with ⟨q', hq', h1, _⟩
          rw [h1]
          exact fun he => hk1 q' hq' (hkg.trans he.symm)
        rw [hrhs, hlhs]
        simp [hv]
      · have hrhs : lookupTbl g ((k, vec) :: rest) = lookupTbl g rest := by
          simp only [lookupTbl]; rw [if_neg hkg]
        rw [hrhs]
        exact ih hkr
    · rw [if_neg hv]
      by_cases hkg : k = g
      · simp only [lookupTbl]
        rw [if_pos hkg, if_pos hkg]
        rfl
      · simp only [lookupTbl]
        rw [if_neg hkg, if_neg hkg]
        exact ih hkr

theorem unregisterNodeServices_no_empty (n : String) :
    ∀ tbl : ServiceTable, ∀ p ∈ unregisterNodeServices n tbl, p.2 ≠ [] := by
  intro tbl
  induction tbl with
  | nil => intro p hp; cases hp
  | cons q rest ih =>
    rcases q with ⟨k, vec⟩
    intro p hp
    unfold unregisterNodeServices at hp
    split at hp
    · exact ih p hp
    · rename_i hv
      rcases List.mem_cons.mp hp with h | h
      · rw [h]; exact hv
      · exact ih p h

/-- The UDP descriptor a node registers for `(node, group, topic)`. -/
def sdU (n g t : String) : ServiceDescriptor :=
  ⟨n, g, t, ServiceType.NORMAL, TransportType.UDP, none, none⟩

/-- The shared-memory descriptor a node registers for the same identity. -/
def sdS (n g t : String) : ServiceDescriptor :=
  ⟨n, g, t, ServiceType.NORMAL, TransportType.SHARED_MEMORY, none, none⟩

end Registry

namespace NodeImpl

open Registry (strLt)

open Registry in
theorem mem_setInsert {t x : String} :
    ∀ {S}, x ∈ setInsert t S ↔ x = t ∨ x ∈ S := by
  intro S
  induction S with
  | nil => simp [setInsert]
  | cons y ys ih =>
    unfold setInsert
    by_cases h1 : strLt t y = true
    · rw [if_pos h1]
      simp [List.mem_cons]
    · rw [if_neg h1]
      by_cases h2 : t = y
      · rw [if_pos h2]
        subst h2
        simp [List.mem_cons]
      · rw [if_neg h2]
        simp only [List.mem_cons, ih]
        tauto

open Registry in
theorem setInsert_sorted {t : String} :
    ∀ {S}, S.Pairwise (fun a b => strLt a b = true) →
      (setInsert t S).Pairwise (fun a b => strLt a b = true) := by
  intro S
  induction S with
  | nil => intro _; simp [setInsert]
  | cons y ys ih =>
    intro hp
    rcases List.pairwise_cons.mp hp with ⟨hy, hys⟩
    unfold setInsert
    by_cases h1 : strLt t y = true
    · rw [if_pos h1]
      refine List.pairwise_cons.mpr ⟨?_, hp⟩
      intro z hz
      rcases List.mem_cons.mp hz with h | h
      · exact h ▸ h1
      · exact strLt_trans h1 (hy z h)
    · rw [if_neg h1]
      by_cases h2 : t = y
      · rw [if_pos h2]; exact hp
      · rw [if_neg h2]
        have hyt : strLt y t = true := by
          cases h3 : strLt y t
          · cases h4 : strLt t y
            · exact absurd (strLt_connex h4 h3) h2
            · exact absurd h4 h1
          · rfl
        refine List.pairwise_cons.mpr ⟨?_, ih hys⟩
        intro z hz
        rcases mem_setInsert.mp hz with h | h
        · exact h ▸ hyt
        · exact hy z h

theorem setErase_sublist (t : String) : ∀ S, (setErase t S).Sublist S := by
  intro S
  induction S with
  | nil => simp [setErase]
  | cons y ys ih =>
    unfold setErase
    by_cases h : t = y
    · rw [if_pos h]
      exact List.sublist_cons_self y ys
    · rw [if_neg h]
      exact List.Sublist.cons₂ y ih

open Registry in
theorem setErase_sorted {t : String} {S : List String}
    (h : S.Pairwise (fun a b => strLt a b = true)) :
    (setErase t S).Pairwise (fun a b => strLt a b = true) :=
  List.Pairwise.sublist (setErase_sublist t S) h

open Registry in
theorem mem_setErase {t x : String} :
    ∀ {S}, S.Pairwise (fun a b => strLt a b = true) →
      (x ∈ setErase t S ↔ x ∈ S ∧ x ≠ t) := by
  intro S
  induction S with
  | nil => intro _; simp [setErase]
  | cons y ys ih =>
    intro hp
    rcases List.pairwise_cons.mp hp with ⟨hy, hys⟩
    unfold setErase
    by_cases h1 : t = y
    · rw [if_pos h1]
      subst h1
      constructor
      · intro hx
        refine ⟨List.mem_cons_of_mem t hx, ?_⟩
        intro he
        rw [he] at hx
        have := hy t hx
        rw [strLt_irrefl] at this
        cases this
      · intro ⟨hx, hne⟩
        rcases List.mem_cons.mp hx with h | h
        · exact absurd h hne
        · exact h
    · rw [if_neg h1]
      constructor
      · intro hx
        rcases List.mem_cons.mp hx with h | h
        · exact ⟨h ▸ List.mem_cons_self y ys, fun he => h1 (he.symm.trans h)⟩
        · rcases (ih hys).mp h with ⟨h2, h3⟩
          exact ⟨List.mem_cons_of_mem y h2, h3⟩
      · intro ⟨hx, hne⟩
        rcases List.mem_cons.mp hx with h | h
        · exact h ▸ List.mem_cons_self y _
        · exact List.mem_cons_of_mem y ((ih hys).mpr ⟨h, hne⟩)

open Registry in
/-- Two strictly sorted string lists with the same members are equal. -/
theorem sorted_ext :
    ∀ {A B : List String}, A.Pairwise (fun a b => strLt a b = true) →
      B.Pairwise (fun a b => strLt a b = true) →
      (∀ x, x ∈ A ↔ x ∈ B) → A = B := by
  intro A
  induction A with
  | nil =>
    intro B _ _ hmem
    cases B with
    | nil => rfl
    | cons b bs =>
      exact absurd ((hmem b).mpr (List.mem_cons_self b bs)) (List.not_mem_nil b)
  | cons a as ih =>
    intro B hA hB hmem
    cases B with
    | nil =>
      exact absurd ((hmem a).mp (List.mem_cons_self a as)) (List.not_mem_nil a)
    | cons b bs =>
      rcases List.pairwise_cons.mp hA with ⟨ha, has⟩
      rcases List.pairwise_cons.mp hB with ⟨hb, hbs⟩
      have hab : a = b := by
        rcases List.mem_cons.mp ((hmem a).mp (List.mem_cons_self a as)) with h | h
        · exact h
        · rcases List.mem_cons.mp ((hmem b).mpr (List.mem_cons_self b bs)) with h' | h'
          · exact h'.symm
          · have hc := strLt_trans (hb a h) (ha b h')
            rw [strLt_irrefl] at hc
            cases hc
      subst hab
      congr 1
      apply ih has hbs
      intro x
      constructor
      · intro hx
        rcases List.mem_cons.mp ((hmem x).mp (List.mem_cons_of_mem a hx)) with h | h
        · have hc := ha x hx
          rw [h, strLt_irrefl] at hc
          cases hc
        · exact h
      · intro hx
        rcases List.mem_cons.mp ((hmem x).mpr (List.mem_cons_of_mem a hx)) with h | h
        · have hc := hb x hx
          rw [h, strLt_irrefl] at hc
          cases hc
        · exact h

open Registry in
theorem mem_foldl_setInsert {x : String} :
    ∀ (T S : List String),
      (x ∈ T.foldl (fun ts t => if t ≠ "" then setInsert t ts else ts) S ↔
        x ∈ S ∨ (x ∈ T ∧ x ≠ "")) := by
  intro T
  induction T with
  | nil => intro S; simp
  | cons t T ih =>
    intro S
    simp only [List.foldl_cons]
    by_cases ht : t ≠ ""
    · rw [if_pos ht, ih, mem_setInsert]
      constructor
      · rintro ((h | h) | ⟨h1, h2⟩)
        · exact Or.inr ⟨h ▸ List.mem_cons_self t T, h ▸ ht⟩
        · exact Or.inl h
        · exact Or.inr ⟨List.mem_cons_of_mem t h1, h2⟩
      · rintro (h | ⟨h1, h2⟩)
        · exact Or.inl (Or.inr h)
        · rcases List.mem_cons.mp h1 with h | h
          · exact Or.inl (Or.inl h)
          · exact Or.inr ⟨h, h2⟩
    · rw [if_neg ht, ih]
      have ht' : t = "" := not_not.mp ht
      constructor
      · rintro (h | ⟨h1, h2⟩)
        · exact Or.inl h
        · exact Or.inr ⟨List.mem_cons_of_mem t h1, h2⟩
      · rintro (h | ⟨h1, h2⟩)
        · exact Or.inl h
        · rcases List.mem_cons.mp h1 with h | h
          · exact absurd (h.trans ht') h2
          · exact Or.inr ⟨h, h2⟩

open Registry in
theorem foldl_setInsert_sorted :
    ∀ (T S : List String), S.Pairwise (fun a b => strLt a b = true) →
      (T.foldl (fun ts t => if t ≠ "" then setInsert t ts else ts) S).Pairwise
        (fun a b => strLt a b = true) := by
  intro T
  induction T with
  | nil => intro S h; exact h
  | cons t T ih =>
    intro S h
    simp only [List.foldl_cons]
    by_cases ht : t ≠ ""
    · rw [if_pos ht]; exact ih _ (setInsert_sorted h)
    · rw [if_neg ht]; exact ih _ h

open Registry in
theorem mem_foldl_setErase {x : String} :
    ∀ (T S : List String), S.Pairwise (fun a b => strLt a b = true) →
      (x ∈ T.foldl (fun ts t => setErase t ts) S ↔ x ∈ S ∧ x ∉ T) := by
  intro T
  induction T with
  | nil => intro S _; simp
  | cons t T ih =>
    intro S hS
    simp only [List.foldl_cons]
    rw [ih _ (setErase_sorted hS), mem_setErase hS]
    constructor
    · rintro ⟨⟨h1, h2⟩, h3⟩
      refine ⟨h1, ?_⟩
      intro hmem
      rcases List.mem_cons.mp hmem with h | h
      · exact h2 h
      · exact h3 h
    · rintro ⟨h1, h2⟩
      exact ⟨⟨h1, fun he => h2 (he ▸ List.mem_cons_self t T)⟩,
        fun hm => h2 (List.mem_cons_of_mem t hm)⟩

open Registry in
theorem foldl_setErase_sorted :
    ∀ (T S : List String), S.Pairwise (fun a b => strLt a b = true) →
      (T.foldl (fun ts t => setErase t ts) S).Pairwise
        (fun a b => strLt a b = true) := by
  intro T
  induction T with
  | nil => intro S h; exact h
  | cons t T ih =>
    intro S h
    simp only [List.foldl_cons]
    exact ih _ (setErase_sorted h)

open Registry in
/-- Inserting the (non-empty-string) topics of `T` into a sorted set
disjoint from `T` and then erasing every topic of `T` restores the set. -/
theorem foldl_erase_foldl_insert (T S0 : List String)
    (hS : S0.Pairwise (fun a b => strLt a b = true))
    (hdisj : ∀ t ∈ T, t ∉ S0) :
    T.foldl (fun ts t => setErase t ts)
      (T.foldl (fun ts t => if t ≠ "" then setInsert t ts else ts) S0) = S0 := by
  apply sorted_ext (foldl_setErase_sorted T _ (foldl_setInsert_sorted T S0 hS)) hS
  intro x
  rw [mem_foldl_setErase T _ (foldl_setInsert_sorted T S0 hS),
    mem_foldl_setInsert]
  constructor
  · rintro ⟨h | ⟨h1, _⟩, h3⟩
    · exact h
    · exact absurd h1 h3
  · intro hx
    exact ⟨Or.inl hx, fun hxT => hdisj x hxT hx⟩

open Registry in
theorem subsLookup_subsInsert (g : String) (v : SubscriptionInfo) :
    ∀ l, subsLookup g (subsInsert g v l) = some v := by
  intro l
  induction l with
  | nil => simp [subsInsert, subsLookup]
  | cons p rest ih =>
    rcases p with ⟨k, w⟩
    unfold subsInsert
    by_cases h1 : strLt g k = true
    · rw [if_pos h1]
      simp [subsLookup]
    · rw [if_neg h1]
      by_cases h2 : g = k
      · rw [if_pos h2]
        simp [subsLookup, h2]
      · rw [if_neg h2]
        simp only [subsLookup]
        rw [if_neg (fun h => h2 h.symm)]
        exact ih

theorem subsLookup_mem {g : String} {v : SubscriptionInfo} :
    ∀ {l}, subsLookup g l = some v → (g, v) ∈ l := by
  intro l
  induction l with
  | nil => intro h; cases h
  | cons p rest ih =>
    rcases p with ⟨k, w⟩
    intro h
    unfold subsLookup at h
    split at h
    · rename_i hk
      injection h with h
      rw [← hk, ← h]
      exact List.mem_cons_self _ _
    · exact List.mem_cons_of_mem _ (ih h)

theorem subsLookup_none {g : String} :
    ∀ {l}, subsLookup g l = none → ∀ p ∈ l, p.1 ≠ g := by
  intro l
  induction l with
  | nil => intro _ p hp; cases hp
  | cons q rest ih =>
    rcases q with ⟨k, w⟩
    intro h p hp
    unfold subsLookup at h
    split at h
    · cases h
    · rename_i hk
      rcases List.mem_cons.mp hp with h' | h'
      · rw [h']; exact hk
      · exact ih h p h'

open Registry in
theorem subsErase_subsInsert (g : String) (v : SubscriptionInfo) :
    ∀ l, (∀ p ∈ l, p.1 ≠ g) → subsErase g (subsInsert g v l) = l := by
  intro l
  induction l with
  | nil => simp [subsInsert, subsErase]
  | cons p rest ih =>
    rcases p with ⟨k, w⟩
    intro hk
    have hkg : k ≠ g := hk (k, w) (List.mem_cons_self _ _)
    unfold subsInsert
    by_cases h1 : strLt g k = true
    · rw [if_pos h1]
      simp [subsErase]
    · rw [if_neg h1]
      by_cases h2 : g = k
      · exact absurd h2.symm hkg
      · rw [if_neg h2]
        simp only [subsErase]
        rw [if_neg hkg, ih (fun p hp => hk p (List.mem_cons_of_mem _ hp))]

open Registry in
theorem subsInsert_subsInsert (g : String) (v1 v2 : SubscriptionInfo) :
    ∀ l, subsInsert g v2 (subsInsert g v1 l) = subsInsert g v2 l := by
  intro l
  induction l with
  | nil =>
    simp [subsInsert, strLt_irrefl]
  | cons p rest ih =>
    rcases p with ⟨k, w⟩
    by_cases h1 : strLt g k = true
    · have hinner : subsInsert g v1 ((k, w) :: rest) = (g, v1) :: (k, w) :: rest := by
        simp only [subsInsert]
        rw [if_pos h1]
      rw [hinner]
      simp [subsInsert, strLt_irrefl, h1]
    · by_cases h2 : g = k
      · have hinner : subsInsert g v1 ((k, w) :: rest) = (k, v1) :: rest := by
          simp only [subsInsert]
          rw [if_neg h1, if_pos h2]
        rw [hinner]
        simp only [subsInsert]
        rw [if_neg h1, if_pos h2, if_neg h1, if_pos h2]
      · have hinner : subsInsert g v1 ((k, w) :: rest) =
            (k, w) :: subsInsert g v1 rest := by
          simp only [subsInsert]
          rw [if_neg h1, if_neg h2]
        rw [hinner]
        simp only [subsInsert]
        rw [if_neg h1, if_neg h2, if_neg h1, if_neg h2, ih]

open Registry in
/-- Replacing a present group's info with one carrying the same topic set
changes nothing `getSubscriptions` can see. -/
theorem map_proj_subsInsert {g : String} {v info0 : SubscriptionInfo} :
    ∀ {l}, l.Pairwise (fun a b => strLt a.1 b.1 = true) →
      subsLookup g l = some info0 → v.topics = info0.topics →
      (subsInsert g v l).map (fun p => (p.1, p.2.topics)) =
        l.map (fun p => (p.1, p.2.topics)) := by
  intro l
  induction l with
  | nil => intro _ h _; cases h
  | cons p rest ih =>
    rcases p with ⟨k, w⟩
    intro hp hl ht
    rcases List.pairwise_cons.mp hp with ⟨hk1, hkr⟩
    by_cases h1 : strLt g k = true
    · exfalso
      unfold subsLookup at hl
      by_cases hkg : k = g
      · rw [hkg] at h1
        rw [strLt_irrefl] at h1
        cases h1
      · rw [if_neg hkg] at hl
        have hmem := subsLookup_mem hl
        have := hk1 (g, info0) hmem
        rw [strLt_asymm h1] at this
        cases this
    · by_cases h2 : g = k
      · have hw : w = info0 := by
          unfold subsLookup at hl
          rw [if_pos h2.symm] at hl
          injection hl
        simp only [subsInsert]
        rw [if_neg h1, if_pos h2]
        simp only [List.map_cons]
        rw [ht, hw]
      · simp only [subsInsert]
        rw [if_neg h1, if_neg h2]
        simp only [List.map_cons]
        congr 1
        apply ih hkr ?_ ht
        unfold subsLookup at hl
        rw [if_neg (fun h => h2 h.symm)] at hl
        exact hl

theorem foldl_setInsert_all_empty :
    ∀ (T S : List String), (∀ t ∈ T, t = "") →
      T.foldl (fun ts t => if t ≠ "" then setInsert t ts else ts) S = S := by
  intro T
  induction T with
  | nil => intro S _; rfl
  | cons t T ih =>
    intro S h
    simp only [List.foldl_cons]
    rw [if_neg (fun hne => hne (h t (List.mem_cons_self t T)))]
    exact ih S (fun x hx => h x (List.mem_cons_of_mem t hx))

theorem filterMap_anns_all_empty (g : String) :
    ∀ (T : List String), (∀ t ∈ T, t = "") →
      T.filterMap (fun t => if t ≠ "" then some (g, t, true) else none) = [] := by
  intro T
  induction T with
  | nil => intro _; rfl
  | cons t T ih =>
    intro h
    simp only [List.filterMap_cons]
    rw [if_neg (fun hne => hne (h t (List.mem_cons_self t T)))]
    exact ih (fun x hx => h x (List.mem_cons_of_mem t hx))

theorem not_mem_of_contains_false {t : String} {l : List String}
    (h : l.contains t = false) : t ∉ l := by
  intro hmem
  have := List.elem_iff.mpr hmem
  rw [show l.contains t = List.elem t l from rfl] at h
  rw [h] at this
  cases this

end NodeImpl

open Ring in
/-- C2 (code bug): on the capacity-64 ring, the four 1-byte writes succeed and
the fifth fails, reads return 1 then 2, the write of payload 5 succeeds, but
the subsequent reads return only 3 and 4: the final read fails instead of
returning 5, because the wrap that stored payload 5 happened with
`head == BUFFER_SIZE`, so no padding frame was written (`pad_len = 0 < 8`)
and the consumer ends at `tail = 64` reading a header beyond the 64-byte
array (out of bounds in the C++ code, zero bytes in this model). -/
theorem ring_capacity64_scenario_last_read_fails :
    (run 64 rbInit opsScenario4).2.1 = [[1], [2], [3], [4], [5]] ∧
    (run 64 rbInit opsScenario4).2.2 = [[1], [2], [3], [4]] ∧
    (run 64 rbInit opsScenario4).1.head = 16 ∧
    (run 64 rbInit opsScenario4).1.tail = 64 := by decide

open Ring in
/-- C3 (counterexample): a reachable state of the capacity-64 ring in which
`tryRead` returns false although `head ≠ tail` (head = 16, tail = 64), so
`head == tail` is not equivalent to `tryRead` returning empty. -/
theorem ring_read_false_head_ne_tail_counterexample :
    (run 64 rbInit opsStuck).1.head = 16 ∧
    (run 64 rbInit opsStuck).1.tail = 64 ∧
    (tryRead (run 64 rbInit opsStuck).1).2 = none := by decide

open Ring in
/-- C3 (amended): the forward direction of the claim holds for every state —
`head == tail` makes `tryRead` return false with the state unchanged — and a
`tryWrite` never makes `head` catch up to `tail`: a successful write always
leaves `head ≠ tail`, and a rejected write leaves `head`, `tail` and the
buffer unmodified.  (The converse direction of the claimed equivalence is
false: see the counterexample.) -/
theorem ring_empty_read_and_full_rejection (B : Nat) (s : RB) (d : List Nat) :
    (s.tail = s.head → tryRead s = (s, none)) ∧
    ((tryWrite B s d).2 = true → (tryWrite B s d).1.head ≠ (tryWrite B s d).1.tail) ∧
    ((tryWrite B s d).2 = false → (tryWrite B s d).1.head = s.head ∧
      (tryWrite B s d).1.tail = s.tail ∧ (tryWrite B s d).1.buf = s.buf) := by
  have hspec := tryWriteP_result B s (some d) d.length (tryWrite B s d)
    (tryWriteP_some B s d)
  exact ⟨fun h => by simp [tryRead, h],
    fun h => ((hspec.1) h).1, fun h => (hspec.2) h⟩

open Ring in
/-- C3 (witness for the amended theorem): concrete instance at the empty
initial state. -/
theorem ring_empty_read_and_full_rejection_witness :
    tryRead rbInit = (rbInit, none) :=
  (ring_empty_read_and_full_rejection 64 rbInit [1]).1 rfl

open Ring in
/-- C4 (counterexample): `tryWrite(nullptr, 1)` on the fresh capacity-64 ring
does not return false — the code has no null-pointer check, so with an
in-range size it reaches `writeFrame`'s `memcpy` from the null pointer
(undefined behaviour, modelled as `none`). -/
theorem ring_null_write_ub_counterexample :
    tryWriteP 64 rbInit none 1 = none := by rfl

open Ring in
/-- C4 (amended): `tryWrite` with `size == 0` or `size > MAX_MSG_SIZE`
(in particular size 2041) returns false and leaves the state — `head` and
the buffer contents included — completely unmodified, for every data
pointer including the null pointer.  A null data pointer alone is not
rejected: with a size in `[1, 2040]` the code dereferences it. -/
theorem ring_invalid_size_write_rejected (B : Nat) (s : RB)
    (ptr : Option (List Nat)) (size : Nat)
    (h : size = 0 ∨ size > MAX_MSG_SIZE) :
    tryWriteP B s ptr size = some (s, false) := by
  unfold tryWriteP
  rcases h with h | h <;> simp [h]

open Ring in
/-- C4 (witness): the amended theorem applied at size 2041 on the fresh
capacity-64 ring. -/
theorem ring_invalid_size_write_rejected_witness :
    tryWriteP 64 rbInit (some [7]) 2041 = some (rbInit, false) :=
  ring_invalid_size_write_rejected 64 rbInit (some [7]) 2041 (by decide)

/-!
Part 2: the service-descriptor table of the process-wide registry
(`src/src/registry/GlobalRegistry.cpp`).  `services_` is a
`std::map<std::string, std::vector<ServiceDescriptor>>`, modelled as an
association list sorted strictly by key with one entry per key.  The
`ServiceDescriptor` struct itself is declared in a header that is not part
of the sources (`nexus/core/NodeImpl.h`), so it is modelled from the spec.
-/

open Registry in
/-- C5: registering the `SHARED_MEMORY` and `UDP` descriptors for the same
`(node_id, group, topic)` identity in either order leaves exactly one
descriptor for the identity in the table, whose transport is
`SHARED_MEMORY`; a further UDP registration for the identity is ignored
(the table is unchanged). -/
theorem registry_shm_precedence (tbl : ServiceTable) (n g t : String)
    (hwf : WFtbl tbl) (tbl2 : ServiceTable)
    (horder :
      tbl2 = registerService g (sdS n g t) (registerService g (sdU n g t) tbl) ∨
      tbl2 = registerService g (sdU n g t) (registerService g (sdS n g t) tbl)) :
    (∃ d, svcsFor n g t tbl2 = [d] ∧
      d.transport = TransportType.SHARED_MEMORY) ∧
    registerService g (sdU n g t) tbl2 = tbl2 := by
  rcases horder with h2 | h2
  · have hwf1 : WFtbl (registerService g (sdU n g t) tbl) :=
      registerService_WF (show (sdU n g t).group = g from rfl) hwf
    have hwf2 : WFtbl tbl2 :=
      h2 ▸ registerService_WF (show (sdS n g t).group = g from rfl) hwf1
    rcases svcsFor_register_shm (n := n) (g := g) (t := t) hwf1 (sdS n g t)
      rfl rfl rfl rfl with ⟨d, hd, hdt⟩
    rw [← h2] at hd
    exact ⟨⟨d, hd, hdt⟩,
      registerService_ignored hwf2 hd hdt (sdU n g t) rfl rfl rfl (fun h => nomatch h)⟩
  · have hwf1 : WFtbl (registerService g (sdS n g t) tbl) :=
      registerService_WF (show (sdS n g t).group = g from rfl) hwf
    rcases svcsFor_register_shm (n := n) (g := g) (t := t) hwf (sdS n g t)
      rfl rfl rfl rfl with ⟨d, hd, hdt⟩
    have hnoop : registerService g (sdU n g t)
        (registerService g (sdS n g t) tbl) =
        registerService g (sdS n g t) tbl :=
      registerService_ignored hwf1 hd hdt (sdU n g t) rfl rfl rfl (fun h => nomatch h)
    have h2' : tbl2 = registerService g (sdS n g t) tbl := h2.trans hnoop
    refine ⟨⟨d, by rw [h2']; exact hd, hdt⟩, ?_⟩
    rw [h2']
    exact hnoop

open Registry in
/-- C5 (witness): both orders on the empty table. -/
theorem registry_shm_precedence_witness :
    (∃ d, svcsFor "n" "g" "t"
        (registerService "g" (sdS "n" "g" "t")
          (registerService "g" (sdU "n" "g" "t") [])) = [d] ∧
      d.transport = TransportType.SHARED_MEMORY) ∧
    registerService "g" (sdU "n" "g" "t")
      (registerService "g" (sdS "n" "g" "t")
        (registerService "g" (sdU "n" "g" "t") [])) =
      registerService "g" (sdS "n" "g" "t")
        (registerService "g" (sdU "n" "g" "t") []) :=
  registry_shm_precedence [] "n" "g" "t" WFtbl_nil _ (Or.inl rfl)

open Registry in
/-- C6 (counterexample): the claim quantifies over arbitrary operation
sequences, but `registerService` never compares the map key it is given
with the descriptor's own `group` field; registering the same descriptor
under two different keys stores two copies of the identity
`("n", "B", "t")`. -/
theorem registry_duplicate_identity_counterexample :
    ¬ AtMostOnePerIdentity (runReg
      [RegOp.reg "A" ⟨"n", "B", "t", ServiceType.NORMAL,
        TransportType.UDP, none, none⟩,
       RegOp.reg "B" ⟨"n", "B", "t", ServiceType.NORMAL,
        TransportType.UDP, none, none⟩]) := by decide

open Registry in
/-- C6 (amended): after any sequence of `registerService`,
`unregisterService`, `unregisterNode` and `clearServices` operations in
which every `registerService` call passes the descriptor's own group as the
map key (as all callers do), the table holds at most one descriptor for any
`(node_id, group, topic)` identity. -/
theorem registry_at_most_one_per_identity (ops : List RegOp)
    (hm : ∀ op ∈ ops, RegOpMatched op) :
    AtMostOnePerIdentity (runReg ops) :=
  wf_atMostOne (runReg_WF ops hm)

open Registry in
/-- C7: for every node id and every service table (with the distinct keys a
`std::map` guarantees), `unregisterNode`'s sweep removes exactly the
descriptors whose `node_id` matches — `findServices` on any group (and on
the empty group, i.e. the whole table) afterwards returns the previous
result minus that node's descriptors — and no group entry is left with an
empty vector. -/
theorem registry_unregister_node_sweep (tbl : ServiceTable) (nid : String)
    (hkeys : tbl.Pairwise (fun a b => a.1 ≠ b.1)) :
    (∀ g, findServices g (unregisterNodeServices nid tbl) =
      (findServices g tbl).filter (fun d => !(d.node_id == nid))) ∧
    ∀ p ∈ unregisterNodeServices nid tbl, p.2 ≠ [] := by
  refine ⟨fun g => ?_, unregisterNodeServices_no_empty nid tbl⟩
  unfold findServices
  by_cases hg : g = ""
  · rw [if_pos hg, if_pos hg]
    exact flatten_unregisterNodeServices nid tbl
  · rw [if_neg hg, if_neg hg]
    exact lookup_unregisterNodeServices nid g tbl hkeys

open Registry in
/-- C7 (witness): a two-descriptor group where one descriptor belongs to the
unregistered node. -/
theorem registry_unregister_node_sweep_witness :
    findServices "g" (unregisterNodeServices "n"
      [("g", [sdU "n" "g" "t", sdU "m" "g" "t"])]) =
    (findServices "g" [("g", [sdU "n" "g" "t", sdU "m" "g" "t"])]).filter
      (fun d => !(d.node_id == "n")) :=
  (registry_unregister_node_sweep
    [("g", [sdU "n" "g" "t", sdU "m" "g" "t"])] "n" (by simp)).1 "g"

open Registry in
/-- C6 (witness): a small group-matched operation sequence. -/
theorem registry_at_most_one_per_identity_witness :
    AtMostOnePerIdentity (runReg
      [RegOp.reg "g" ⟨"n", "g", "t", ServiceType.NORMAL,
        TransportType.UDP, none, none⟩,
       RegOp.reg "g" ⟨"n", "g", "u", ServiceType.NORMAL,
        TransportType.SHARED_MEMORY, none, none⟩,
       RegOp.unregNode "m"]) :=
  registry_at_most_one_per_identity _ (by decide)

/-!
Part 3: the subscription state of a node (`src/src/NodeImpl.cpp`,
class `librpc::NodeImpl`).  `subscriptions_` is a
`std::map<std::string, SubscriptionInfo>` where `SubscriptionInfo` holds a
`std::set<std::string>` of topics and the group's callback; both ordered
containers are modelled as strictly-sorted lists under the `strLt` string
order.  A `std::function` callback is modelled as a `Nat`, `0` being the
empty (null) function.  The `broadcastSubscription(group, topic,
is_subscribe)` calls a member function makes are recorded as a list of
`(group, topic, Bool)` announcements. -/

open NodeImpl in
/-- C8 (amended): for an initialised node, `subscribe(g, T, cb)` followed by
`unsubscribe(g, T)` (T non-empty, `cb` non-null, `g` non-empty) restores
`getSubscriptions()` provided no topic of `T` was already subscribed in
group `g` and `g`'s existing entry, if any, has a non-empty topic set.
(Without those provisos the claim fails: see the counterexample.) -/
theorem node_subscribe_unsubscribe_roundtrip (s : NState) (g : String)
    (T : List String) (cb : Nat) (hwf : SubsWF s) (hrun : s.running = true)
    (hg : g ≠ "") (hT : T ≠ []) (hcb : cb ≠ 0)
    (hdisj : ∀ t ∈ T, isSubscribed s g t = false)
    (hne : ∀ info, subsLookup g s.subscriptions = some info →
      info.topics ≠ []) :
    ∃ s1 a1 s2 a2,
      subscribe s g T cb = (s1, Node.Error.NO_ERROR, a1) ∧
      unsubscribe s1 g T = some (s2, Node.Error.NO_ERROR, a2) ∧
      getSubscriptions s2 = getSubscriptions s := by
  have hvalid : ¬(g = "" ∨ T = [] ∨ cb = 0) := by simp [hg, hT, hcb]
  have hrun' : ¬(s.running = false) := by rw [hrun]; exact fun h => nomatch h
  have hsub : subscribe s g T cb =
      (⟨s.running, subsInsert g
          ⟨T.foldl (fun ts t => if t ≠ "" then setInsert t ts else ts)
            ((subsLookup g s.subscriptions).getD ⟨[], 0⟩).topics, cb⟩
          s.subscriptions⟩,
       Node.Error.NO_ERROR,
       T.filterMap (fun t => if t ≠ "" then some (g, t, true) else none)) := by
    unfold subscribe
    rw [if_neg hvalid, if_neg hrun']
  cases hl : subsLookup g s.subscriptions with
  | none =>
    rw [hl] at hsub
    simp only [Option.getD_none] at hsub
    have herase : T.foldl (fun ts t => setErase t ts)
        (T.foldl (fun ts t => if t ≠ "" then setInsert t ts else ts) []) = [] :=
      foldl_erase_foldl_insert T [] List.Pairwise.nil
        (fun t _ hm => absurd hm (List.not_mem_nil t))
    have hstate : subsErase g (subsInsert g
        ⟨T.foldl (fun ts t => if t ≠ "" then setInsert t ts else ts) [], cb⟩
        s.subscriptions) = s.subscriptions :=
      subsErase_subsInsert g _ s.subscriptions (subsLookup_none hl)
    have hunsub : unsubscribe
        ⟨s.running, subsInsert g
          ⟨T.foldl (fun ts t => if t ≠ "" then setInsert t ts else ts) [], cb⟩
          s.subscriptions⟩ g T =
        some (⟨s.running, s.subscriptions⟩, Node.Error.NO_ERROR,
          T.map (fun t => (g, t, false))) := by
      unfold unsubscribe
      rw [if_neg hg]
      dsimp only
      rw [if_neg hrun']
      simp only [subsLookup_subsInsert]
      rw [if_neg hT]
      rw [herase, if_pos rfl, hstate]
    exact ⟨_, _, _, _, hsub, hunsub, rfl⟩
  | some info0 =>
    rw [hl] at hsub
    simp only [Option.getD_some] at hsub
    have hS0sorted : info0.topics.Pairwise
        (fun a b => Registry.strLt a b = true) :=
      hwf.2 (g, info0) (subsLookup_mem hl)
    have hdisj' : ∀ t ∈ T, t ∉ info0.topics := by
      intro t ht
      have hd := hdisj t ht
      unfold isSubscribed at hd
      simp only [hl] at hd
      exact not_mem_of_contains_false hd
    have herase : T.foldl (fun ts t => setErase t ts)
        (T.foldl (fun ts t => if t ≠ "" then setInsert t ts else ts)
          info0.topics) = info0.topics :=
      foldl_erase_foldl_insert T info0.topics hS0sorted hdisj'
    have hne0 : info0.topics ≠ [] := hne info0 hl
    have hunsub : unsubscribe
        ⟨s.running, subsInsert g
          ⟨T.foldl (fun ts t => if t ≠ "" then setInsert t ts else ts)
            info0.topics, cb⟩ s.subscriptions⟩ g T =
        some (⟨s.running, subsInsert g ⟨info0.topics, cb⟩
            (subsInsert g
              ⟨T.foldl (fun ts t => if t ≠ "" then setInsert t ts else ts)
                info0.topics, cb⟩ s.subscriptions)⟩,
          Node.Error.NO_ERROR, T.map (fun t => (g, t, false))) := by
      unfold unsubscribe
      rw [if_neg hg]
      dsimp only
      rw [if_neg hrun']
      simp only [subsLookup_subsInsert]
      rw [if_neg hT]
      rw [herase, if_neg hne0]
    refine ⟨_, _, _, _, hsub, hunsub, ?_⟩
    show (subsInsert g ⟨info0.topics, cb⟩
        (subsInsert g _ s.subscriptions)).map (fun p => (p.1, p.2.topics)) =
      s.subscriptions.map (fun p => (p.1, p.2.topics))
    rw [subsInsert_subsInsert]
    exact map_proj_subsInsert hwf.1 hl rfl

open NodeImpl in
/-- C8 (witness): the amended round trip on a fresh node. -/
theorem node_subscribe_unsubscribe_roundtrip_witness :
    ∃ s1 a1 s2 a2,
      subscribe nodeInit "g" ["a"] 1 = (s1, Node.Error.NO_ERROR, a1) ∧
      unsubscribe s1 "g" ["a"] = some (s2, Node.Error.NO_ERROR, a2) ∧
      getSubscriptions s2 = getSubscriptions nodeInit :=
  node_subscribe_unsubscribe_roundtrip nodeInit "g" ["a"] 1
    ⟨List.Pairwise.nil, fun p hp => absurd hp (List.not_mem_nil p)⟩ rfl
    (by decide) (by decide) (by decide) (by decide) (fun info h => by cases h)

open NodeImpl in
/-- C8 (counterexample): if a topic of `T` was already subscribed in the
group, the pair removes it: on a node already subscribed to
`("g", ["a"])`, `subscribe("g", ["a"], cb); unsubscribe("g", ["a"])`
leaves `getSubscriptions()` empty instead of `[("g", ["a"])]`. -/
theorem node_roundtrip_counterexample :
    getSubscriptions (subscribe nodeInit "g" ["a"] 1).1 = [("g", ["a"])] ∧
    (unsubscribe (subscribe (subscribe nodeInit "g" ["a"] 1).1
        "g" ["a"] 2).1 "g" ["a"]).map (fun r => getSubscriptions r.1) =
      some [] ∧
    some ([] : List (String × List String)) ≠
      some (getSubscriptions (subscribe nodeInit "g" ["a"] 1).1) := by decide

open NodeImpl in
/-- C9 (code bug): `unsubscribe` with an empty topic list on a subscribed
group erases the map entry and then iterates the erased entry's topic set
to emit the announcements — a use-after-free, modelled as undefined
behaviour (`none`).  The `NOT_FOUND` result for an unknown group (the
claim's other part) is intact. -/
theorem node_unsubscribe_empty_topics_ub :
    unsubscribe (subscribe nodeInit "g" ["a"] 1).1 "g" [] = none ∧
    unsubscribe (subscribe nodeInit "g" ["a"] 1).1 "x" [] =
      some ((subscribe nodeInit "g" ["a"] 1).1, Node.Error.NOT_FOUND, []) :=
  ⟨by decide, by decide⟩

open NodeImpl in
/-- C10: `subscribe` with a non-empty topic list consisting only of empty
strings returns `NO_ERROR`: the empty-string topics are silently skipped
(no topic inserted, no announcement emitted), the group entry is created
or kept with its previous topic set, its callback is replaced by `cb`, and
the entry — possibly with an empty topic set — is visible in
`getSubscriptions()`. -/
theorem node_subscribe_empty_string_topics (s : NState) (g : String)
    (T : List String) (cb : Nat) (hrun : s.running = true) (hg : g ≠ "")
    (hT : T ≠ []) (hcb : cb ≠ 0) (hempty : ∀ t ∈ T, t = "") :
    subscribe s g T cb =
      (⟨s.running, subsInsert g
          ⟨((subsLookup g s.subscriptions).getD ⟨[], 0⟩).topics, cb⟩
          s.subscriptions⟩, Node.Error.NO_ERROR, []) ∧
    subsLookup g (subscribe s g T cb).1.subscriptions =
      some ⟨((subsLookup g s.subscriptions).getD ⟨[], 0⟩).topics, cb⟩ ∧
    (g, ((subsLookup g s.subscriptions).getD ⟨[], 0⟩).topics) ∈
      getSubscriptions (subscribe s g T cb).1 := by
  have hvalid : ¬(g = "" ∨ T = [] ∨ cb = 0) := by simp [hg, hT, hcb]
  have hrun' : ¬(s.running = false) := by rw [hrun]; exact fun h => nomatch h
  have hsub0 : subscribe s g T cb =
      (⟨s.running, subsInsert g
          ⟨T.foldl (fun ts t => if t ≠ "" then setInsert t ts else ts)
            ((subsLookup g s.subscriptions).getD ⟨[], 0⟩).topics, cb⟩
          s.subscriptions⟩,
       Node.Error.NO_ERROR,
       T.filterMap (fun t => if t ≠ "" then some (g, t, true) else none)) := by
    unfold subscribe
    rw [if_neg hvalid, if_neg hrun']
  have hsub : subscribe s g T cb =
      (⟨s.running, subsInsert g
          ⟨((subsLookup g s.subscriptions).getD ⟨[], 0⟩).topics, cb⟩
          s.subscriptions⟩, Node.Error.NO_ERROR, []) := by
    rw [hsub0, foldl_setInsert_all_empty T _ hempty,
      filterMap_anns_all_empty g T hempty]
  refine ⟨hsub, ?_, ?_⟩
  · rw [hsub]
    exact subsLookup_subsInsert g _ s.subscriptions
  · rw [hsub]
    exact List.mem_map.mpr ⟨(g, ⟨((subsLookup g s.subscriptions).getD
      ⟨[], 0⟩).topics, cb⟩),
      subsLookup_mem (subsLookup_subsInsert g _ s.subscriptions), rfl⟩

open NodeImpl in
/-- C10 (witness): subscribing with the single empty-string topic on a fresh
node creates a visible group entry with an empty topic set. -/
theorem node_subscribe_empty_string_topics_witness :
    subscribe nodeInit "h" [""] 7 =
      (⟨true, [("h", ⟨[], 7⟩)]⟩, Node.Error.NO_ERROR, []) ∧
    subsLookup "h" (subscribe nodeInit "h" [""] 7).1.subscriptions =
      some ⟨[], 7⟩ ∧
    ("h", ([] : List String)) ∈ getSubscriptions (subscribe nodeInit "h" [""] 7).1 :=
  node_subscribe_empty_string_topics nodeInit "h" [""] 7 rfl (by decide)
    (by decide) (by decide) (by decide)

open Ring in
/-- C1 (confirmed): on a ring of any capacity that is a multiple of eight
(as every instantiation of the template in the repository is), the
payloads returned by the successful `tryRead` calls of any single-producer
single-consumer operation sequence are an initial segment of the payloads
of the successful `tryWrite` calls: every successful read returns the
payload of an earlier successful write, in write order, with no
duplicates, drops within the delivered part, or reorderings. -/
theorem ring_fifo_reads_follow_writes (B : Nat) (hB : 8 ∣ B)
    (ops : List Op) :
    ∃ ks, (run B rbInit ops).2.1 = (run B rbInit ops).2.2 ++ ks := by
  obtain ⟨⟨ks, hks⟩, h2⟩ := run_keeps_order hB ops rbInit [] [] (Inv_init B)
  exact ⟨ks, hks⟩

open Ring in
/-- C1 (witness): the FIFO theorem instantiated on the capacity-64 ring
and the scenario-4 operation sequence. -/
theorem ring_fifo_reads_follow_writes_witness :
    ∃ ks, (run 64 rbInit opsScenario4).2.1 =
      (run 64 rbInit opsScenario4).2.2 ++ ks :=
  ring_fifo_reads_follow_writes 64 (by decide) opsScenario4

end Spec2Proof
